import Mathlib

/-!
# Verification of the go-timeutil duration / time-expression core

This file gives a shallow embedding of the duration grammar parser,
the duration formatters and the time-expression dispatcher of the
`bww/go-timeutil` repository (`v1/parse.go` and the duration source in
the same package), and proves properties of that embedding.

Modelling conventions:

* Go strings are modelled as `List Char`.  Every comparison the source
  performs on string bytes is a comparison against an ASCII character
  (digits, `'.'`, `'+'`, `'-'`), and UTF-8 continuation bytes of the
  non-ASCII unit spellings (`µ`, `μ`) are never digits or `'.'`, so the
  byte-level scans of the source and the character-level scans here cut
  the string at exactly the same places.
* Go's `uint64` values are modelled as `Nat`; arithmetic steps that the
  source guards against wrapping are plain `Nat` arithmetic (the guards
  are part of the code and are reproduced here); the one accumulation
  the source allows to wrap before checking it (`d += v` in the token
  loop) is reduced modulo `2^64` as `uint64` addition is, and intended
  reinterpretations are written out explicitly (`goInt64OfUint64`,
  `goInt64Neg`).
* Go's `int64` values (`time.Duration`) are modelled as `Int`.  Go's
  integer division and remainder truncate toward zero, which is
  `Int.tdiv` / `Int.tmod`.
* `float64` values are modelled as exact rationals together with an
  explicit round-to-nearest-even operation `f64round` (see below).
* Loops that walk a string are embedded as recursions carrying a fuel
  argument that the kernel can evaluate; the fuel supplied at each call
  site is an upper bound on the number of iterations (each iteration
  consumes at least one character), so the out-of-fuel branch is
  unreachable from the entry points.
* Errors are modelled by the error kind of the `errors.New` call site
  (the spec's kinds InvalidDuration / MissingUnit / UnknownUnit /
  Overflow); the diagnostic quoting routine `quote` of the source only
  decorates messages and is not modelled.
-/

/-- Character class test of the source's numeric scans: Go writes
`c < '0' || c > '9'` for the break condition, so the digit class is
`'0' <= c && c <= '9'`. -/
def isGoDigit (c : Char) : Bool := '0' ≤ c && c ≤ '9'

/-- Character class of the unit scan in `ParseDuration`: the unit is the
longest run of characters that are not digits and not `'.'` (the loop
`for i < len(s); i++ { c := s[i]; if c == '.' || '0' <= c && c <= '9' { break } }`). -/
def unitChar (c : Char) : Bool := !(c == '.' || isGoDigit c)

/-- Value of a run of decimal digit characters, most significant first. -/
def digitsVal (ds : List Char) : Nat :=
  ds.foldl (fun a c => 10 * a + (c.toNat - '0'.toNat)) 0

/-- The character of the decimal digit `n` (for `n < 10`). -/
def digitChar (n : Nat) : Char := Char.ofNat ('0'.toNat + n)

/-- Fuelled decimal rendering of a natural number (see `natDigits`). -/
def natDigitsAux : Nat → Nat → List Char
  | 0, _ => []
  | fuel + 1, n =>
    if n < 10 then [digitChar n]
    else natDigitsAux fuel (n / 10) ++ [digitChar (n % 10)]

/-- Decimal rendering of a natural number, most significant digit first
(the digits that Go's `fmt.Sprintf("%d", v)` prints for `v ≥ 0`).  The
fuel `n + 1` bounds the number of digits, so the empty out-of-fuel
result is never produced. -/
def natDigits (n : Nat) : List Char := natDigitsAux (n + 1) n

/-- Embedding of `leadingInt`'s accumulation loop.  Source:

    for ; i < len(s); i++ {
      c := s[i]
      if c < '0' || c > '9' { break }
      if x > 1<<63/10 { return 0, "", errLeadingInt }   // overflow
      x = x*10 + uint64(c) - '0'
      if x > 1<<63 { return 0, "", errLeadingInt }      // overflow
    }
    return x, s[i:], nil

`none` is the `errLeadingInt` outcome (the caller never looks at the
other two components of an error return). -/
def leadingIntGo (x : Nat) : List Char → Option (Nat × List Char)
  | [] => some (x, [])
  | c :: rest =>
    if c < '0' ∨ '9' < c then some (x, c :: rest)
    else if 2 ^ 63 / 10 < x then none
    else
      let y := x * 10 + (c.toNat - '0'.toNat)
      if 2 ^ 63 < y then none
      else leadingIntGo y rest

/-- `leadingInt` consumes the leading `[0-9]*` of `s`, overflow-checked. -/
def leadingInt (s : List Char) : Option (Nat × List Char) := leadingIntGo 0 s

/-!
## A model of the binary64 operations used by `ParseDuration`

The source computes the fractional contribution of a token as
`uint64(float64(f) * (float64(unit) / scale))` in IEEE-754 binary64
("double precision") arithmetic.  Binary64 is modelled here inside `ℚ`:
a finite binary64 value is a rational, and each operation first computes
the exact rational result and then rounds it to 53 significant binary
digits with round-to-nearest, ties-to-even — which is exactly how IEEE
arithmetic behaves throughout the normal range.  Every quantity this
code feeds into a float computation lies far inside the normal range,
so overflow to infinity and subnormal rounding never occur and are not
modelled. -/

/-- Number of binary digits of `n` (`0` for `0`), by fuelled halving so
that the kernel can evaluate it. -/
def bitsAux : Nat → Nat → Nat
  | 0, _ => 0
  | fuel + 1, n => if n = 0 then 0 else bitsAux fuel (n / 2) + 1

/-- Number of binary digits of `n`: `2^(bits n - 1) ≤ n < 2^(bits n)` for
positive `n`. -/
def bits (n : Nat) : Nat := bitsAux n n

/-- Floor of the base-2 logarithm of a positive rational. -/
def qlog2 (q : ℚ) : Int :=
  let e : Int := (bits q.num.toNat : Int) - (bits q.den : Int)
  if (2 : ℚ) ^ e ≤ q then e else e - 1

/-- Floor of a rational as an integer (`Int` division of the numerator by
the denominator is floor division, the denominator being positive). -/
def ratFloor (q : ℚ) : Int := q.num / (q.den : Int)

/-- Round a positive rational to the nearest binary64 value
(round-to-nearest, ties to even), for arguments in the normal range;
nonpositive arguments (never produced here) map to `0`. -/
def f64round (q : ℚ) : ℚ :=
  if q ≤ 0 then 0
  else
    let e : Int := qlog2 q - 52
    let m : ℚ := q / 2 ^ e
    let fl : Int := ratFloor m
    let fr : ℚ := m - (fl : ℚ)
    let mr : Int :=
      if fr < 1 / 2 then fl
      else if 1 / 2 < fr then fl + 1
      else if fl % 2 = 0 then fl else fl + 1
    (mr : ℚ) * 2 ^ e

/-- Go's `float64(n)` conversion of an unsigned integer. -/
def f64ofNat (n : Nat) : ℚ := f64round (n : ℚ)

/-- Binary64 multiplication: exact product, rounded. -/
def f64mul (a b : ℚ) : ℚ := f64round (a * b)

/-- Binary64 division: exact quotient, rounded. -/
def f64div (a b : ℚ) : ℚ := f64round (a / b)

/-- Go's `uint64(x)` conversion of a `float64`: truncation toward zero
(the argument here is always nonnegative and in range). -/
def f64toUint64 (q : ℚ) : Nat := (ratFloor q).toNat

/-- The fractional contribution of a token:
`uint64(float64(f) * (float64(unit) / scale))` of the source, with
`scale` the binary64 value carried by `leadingFraction`. -/
def fracAdd (f unit : Nat) (scale : ℚ) : Nat :=
  f64toUint64 (f64mul (f64ofNat f) (f64div (f64ofNat unit) scale))

/-- Embedding of `leadingFraction`'s loop.  Source:

    for ; i < len(s); i++ {
      c := s[i]
      if c < '0' || c > '9' { break }
      if overflow { continue }
      if x > (1<<63-1)/10 { overflow = true; continue }
      y := x*10 + uint64(c) - '0'
      if y > 1<<63 { overflow = true; continue }
      x = y
      scale *= 10
    }

The Go `scale` is a `float64` that starts at `1` and is multiplied by
`10` once per digit accumulated (the literal `10` is exact in binary64),
so it is carried here as a rational and each `scale *= 10` is the
rounded binary64 product `f64mul scale 10`.  While at most `22` digits
have been accumulated the value is still exactly `10^(digits)` (every
power of ten up to `10^22` is exactly representable, its significand
`5^k` staying below `2^53`), but a run of leading zeros can push the
multiplication count past `22` while the numerator keeps accumulating,
after which the value is only approximately a power of ten. -/
def leadingFracGo (x : Nat) (scale : ℚ) (overflow : Bool) : List Char → Nat × ℚ × List Char
  | [] => (x, scale, [])
  | c :: rest =>
    if c < '0' ∨ '9' < c then (x, scale, c :: rest)
    else if overflow then leadingFracGo x scale true rest
    else if (2 ^ 63 - 1) / 10 < x then leadingFracGo x scale true rest
    else
      let y := x * 10 + (c.toNat - '0'.toNat)
      if 2 ^ 63 < y then leadingFracGo x scale true rest
      else leadingFracGo y (f64mul scale 10) false rest

/-- `leadingFraction` consumes the leading `[0-9]*` of `s` as a fraction
numerator and scale; it never fails. -/
def leadingFraction (s : List Char) : Nat × ℚ × List Char :=
  leadingFracGo 0 1 false s

/-- Decidable equality of `Except` results, so that concrete runs of the
parser can be checked by `decide`. -/
instance {e a : Type} [DecidableEq e] [DecidableEq a] : DecidableEq (Except e a)
  | .error x, .error y =>
    if h : x = y then .isTrue (by rw [h]) else .isFalse (by simp [h])
  | .error _, .ok _ => .isFalse (by simp)
  | .ok _, .error _ => .isFalse (by simp)
  | .ok x, .ok y =>
    if h : x = y then .isTrue (by rw [h]) else .isFalse (by simp [h])

/-!
## The duration grammar parser
-/

/-- The unit table of the package (`unitMap`), a fixed map from unit
symbol to nanosecond scale.  The package adds `d` (24h) and `w` (7d) to
the units of Go's `time.ParseDuration`. -/
def unitMap (u : List Char) : Option Nat :=
  if u = ['n', 's'] then some 1
  else if u = ['u', 's'] then some 1000
  else if u = ['µ', 's'] then some 1000        -- U+00B5 = micro symbol
  else if u = ['μ', 's'] then some 1000        -- U+03BC = Greek letter mu
  else if u = ['m', 's'] then some 1000000
  else if u = ['s'] then some 1000000000
  else if u = ['m'] then some 60000000000
  else if u = ['h'] then some 3600000000000
  else if u = ['d'] then some 86400000000000
  else if u = ['w'] then some 604800000000000
  else none

/-- Error kinds of `ParseDuration`, one per `errors.New` call site of the
source, named with the spec's error kinds: the "invalid duration" sites
that the source comments or the spec's steps 4–6 and final step label as
overflow checks are `overflow` (including the propagation of
`errLeadingInt`, which `leadingInt` only produces on overflow);
"missing unit in duration" is `missingUnit`; "unknown unit … in
duration" is `unknownUnit`; the remaining "invalid duration" sites are
`invalidDuration`. -/
inductive DurErr
  | invalidDuration
  | missingUnit
  | unknownUnit
  | overflow
deriving DecidableEq, Repr

/-- The optional-fraction step of the token loop.  Source:

    post := false
    if s != "" && s[0] == '.' {
      s = s[1:]
      pl := len(s)
      f, scale, s = leadingFraction(s)
      post = pl != len(s)
    }

Returns `(f, scale, remainder, post)`; when the input does not start
with `'.'` the defaults `f = 0`, `scale = 1` apply. -/
def fracStep : List Char → Nat × ℚ × List Char × Bool
  | '.' :: s2 =>
    let r := leadingFraction s2
    (r.1, r.2.1, r.2.2, decide (r.2.2.length ≠ s2.length))
  | s1 => (0, 1, s1, false)

/-- Embedding of the token loop of `ParseDuration` (`for s != "" { … }`),
with `d` the running accumulator.  Source, per iteration:

    // The next character must be [0-9.]
    if !(s[0] == '.' || '0' <= s[0] && s[0] <= '9') { return InvalidDuration }
    // Consume [0-9]*
    pl := len(s)
    v, s, err = leadingInt(s)
    if err != nil { return error }              // leadingInt overflowed
    pre := pl != len(s)
    // Consume (\.[0-9]*)?
    (fraction step, see fracStep)
    if !pre && !post { return InvalidDuration } // no digits (e.g. ".s")
    // Consume unit.
    (unit scan: longest run of non-digit non-dot characters)
    if i == 0 { return MissingUnit }
    unit, ok := unitMap[u]; if !ok { return UnknownUnit }
    if v > 1<<63/unit { return Overflow }
    v *= unit
    if f > 0 {
      v += uint64(float64(f) * (float64(unit) / scale))
      if v > 1<<63 { return Overflow }
    }
    d += v
    if d > 1<<63 { return Overflow }

The `f > 0` guard and its overflow check are flattened into `v2` and the
conjunction `0 < f ∧ 2^63 < v2` below (when `f = 0` the source neither
adds the fractional part nor performs that check).  `d += v` is `uint64`
addition and may wrap before the following check sees it, so it is the
addition modulo `2^64` (the earlier guards keep `v` itself from
wrapping: `v * unit ≤ 2^63` by the quotient check, and the fractional
addend is far below `2^63`).  Every iteration consumes at least one
character (the unit is non-empty), so the out-of-fuel branch is
unreachable when the fuel is at least the length of the string, which
is what `ParseDuration` supplies. -/
def parseDurLoop (fuel : Nat) (d : Nat) (s : List Char) : Except DurErr Nat :=
  match s with
  | [] => .ok d
  | c0 :: s0 =>
    match fuel with
    | 0 => .error .invalidDuration        -- out of fuel: never reached
    | fuel + 1 =>
      if !(c0 == '.' || isGoDigit c0) then .error .invalidDuration
      else
        match leadingInt (c0 :: s0) with
        | none => .error .overflow
        | some (v, s1) =>
          let pre : Bool := decide (s1.length ≠ (c0 :: s0).length)
          match fracStep s1 with
          | (f, scale, s3, post) =>
            if !pre && !post then .error .invalidDuration
            else
              let u := s3.takeWhile unitChar
              if u = [] then .error .missingUnit
              else
                match unitMap u with
                | none => .error .unknownUnit
                | some unit =>
                  if 2 ^ 63 / unit < v then .error .overflow
                  else
                    let v2 := if 0 < f then v * unit + fracAdd f unit scale else v * unit
                    if 0 < f ∧ 2 ^ 63 < v2 then .error .overflow
                    else if 2 ^ 63 < (d + v2) % 2 ^ 64 then .error .overflow
                    else parseDurLoop fuel ((d + v2) % 2 ^ 64) (s3.dropWhile unitChar)

/-- Go's conversion of a `uint64` to an `int64` (`time.Duration(d)`):
reinterpretation of the two's-complement bits. -/
def goInt64OfUint64 (n : Nat) : Int :=
  if n < 2 ^ 63 then (n : Int) else (n : Int) - 2 ^ 64

/-- Go's `int64` negation (`-x`), which wraps: the negation of the
minimum value is itself. -/
def goInt64Neg (x : Int) : Int := (2 ^ 63 - x) % 2 ^ 64 - 2 ^ 63

/-- Embedding of `ParseDuration`.  Source:

    orig := s
    var d uint64
    neg := false
    // Consume [-+]?
    if s != "" {
      c := s[0]
      if c == '-' || c == '+' { neg = c == '-'; s = s[1:] }
    }
    // Special case: if all that is left is "0", this is zero.
    if s == "0" { return 0, nil }
    if s == "" { return 0, InvalidDuration }
    for s != "" { … token loop … }
    if neg { return -time.Duration(d), nil }
    if d > 1<<63-1 { return 0, Overflow }
    return time.Duration(d), nil

The error of the final `d > 1<<63-1` check is the final-step Overflow
rejection of the spec (its message text is "invalid duration").  The
loop fuel is the length of the remaining string, a bound on the number
of iterations. -/
def ParseDuration (s : List Char) : Except DurErr Int :=
  let signStripped :=
    match s with
    | '-' :: rest => (true, rest)
    | '+' :: rest => (false, rest)
    | _ => (false, s)
  let neg := signStripped.1
  let s1 := signStripped.2
  if s1 = ['0'] then .ok 0
  else if s1 = [] then .error .invalidDuration
  else
    match parseDurLoop s1.length 0 s1 with
    | .error e => .error e
    | .ok d =>
      if neg then .ok (goInt64Neg (goInt64OfUint64 d))
      else if 2 ^ 63 - 1 < d then .error .overflow
      else .ok (goInt64OfUint64 d)

/-!
## The duration formatters
-/

/-- The digits Go's `fmt.Sprintf("%d", v)` prints for an `int64`: a
minus sign followed by the decimal digits of the magnitude when `v` is
negative, the decimal digits of `v` otherwise. -/
def intDec (n : Int) : List Char :=
  if n < 0 then '-' :: natDigits n.natAbs else natDigits n.toNat

/-- Embedding of `formatHigh`: the day/hour/minute/second half of the
canonical rendering.  Source:

    d = d / time.Second
    v = d % 60; if v != 0 { f = fmt.Sprintf("%ds", v) + f }
    d /= 60
    v = d % 60; if v != 0 { f = fmt.Sprintf("%dm", v) + f }
    d /= 60
    v = d % 24; if v != 0 { f = fmt.Sprintf("%dh", v) + f }
    d /= 24
    if d > 0 { f = fmt.Sprintf("%dd", d) + f }

Go's `/` and `%` on `time.Duration` truncate toward zero
(`Int.tdiv` / `Int.tmod`). -/
def formatHigh (d0 : Int) : List Char :=
  let d1 := Int.tdiv d0 1000000000
  let f1 : List Char :=
    if Int.tmod d1 60 ≠ 0 then intDec (Int.tmod d1 60) ++ ['s'] else []
  let d2 := Int.tdiv d1 60
  let f2 :=
    if Int.tmod d2 60 ≠ 0 then (intDec (Int.tmod d2 60) ++ ['m']) ++ f1 else f1
  let d3 := Int.tdiv d2 60
  let f3 :=
    if Int.tmod d3 24 ≠ 0 then (intDec (Int.tmod d3 24) ++ ['h']) ++ f2 else f2
  let d4 := Int.tdiv d3 24
  if 0 < d4 then (intDec d4 ++ ['d']) ++ f3 else f3

/-- Embedding of `formatLow`: the millisecond/microsecond/nanosecond
half of the canonical rendering.  Source:

    d = d % time.Second
    v = d % 1000; if v != 0 { f = fmt.Sprintf("%dns", v) + f }
    d /= 1000
    v = d % 1000; if v != 0 { f = fmt.Sprintf("%dµs", v) + f }
    d /= 1000
    if d > 0 { f = fmt.Sprintf("%dms", d) + f } -/
def formatLow (d0 : Int) : List Char :=
  let d1 := Int.tmod d0 1000000000
  let f1 : List Char :=
    if Int.tmod d1 1000 ≠ 0 then intDec (Int.tmod d1 1000) ++ ['n', 's'] else []
  let d2 := Int.tdiv d1 1000
  let f2 :=
    if Int.tmod d2 1000 ≠ 0 then (intDec (Int.tmod d2 1000) ++ ['µ', 's']) ++ f1 else f1
  let d3 := Int.tdiv d2 1000
  if 0 < d3 then (intDec d3 ++ ['m', 's']) ++ f2 else f2

/-- Embedding of `FormatDuration`: `"0s"` for zero, otherwise the high
half followed by the low half. -/
def FormatDuration (d : Int) : List Char :=
  if d = 0 then ['0', 's'] else formatHigh d ++ formatLow d

/-- Embedding of `Duration.Truncate(m)` of the Go standard library:
rounding toward zero to a multiple of `m` (identity for `m ≤ 0`). -/
def durTruncate (d m : Int) : Int := if m ≤ 0 then d else d - Int.tmod d m

/-- Embedding of `FormatSimplifiedDuration`.  Source:

    switch {
    case d > time.Hour*24:
      return fmt.Sprintf("%dd %dh", d.Truncate(time.Hour*24)/(time.Hour*24),
                                    (d%(time.Hour*24))/time.Hour)
    case d > time.Hour:
      return fmt.Sprintf("%dh", d.Truncate(time.Hour)/time.Hour)
    case d > time.Minute:
      return fmt.Sprintf("%dm", d.Truncate(time.Minute)/time.Minute)
    case d > time.Second:
      return fmt.Sprintf("%ds", d.Truncate(time.Second)/time.Second)
    case d > time.Millisecond:
      return fmt.Sprintf("%dms", d.Truncate(time.Millisecond)/time.Millisecond)
    case d > time.Microsecond:
      return fmt.Sprintf("%dµs", d.Truncate(time.Microsecond)/time.Microsecond)
    default:
      return fmt.Sprintf("%dns", d)
    } -/
def FormatSimplifiedDuration (d : Int) : List Char :=
  if 86400000000000 < d then
    (intDec (Int.tdiv (durTruncate d 86400000000000) 86400000000000) ++ ['d', ' ']) ++
      (intDec (Int.tdiv (Int.tmod d 86400000000000) 3600000000000) ++ ['h'])
  else if 3600000000000 < d then
    intDec (Int.tdiv (durTruncate d 3600000000000) 3600000000000) ++ ['h']
  else if 60000000000 < d then
    intDec (Int.tdiv (durTruncate d 60000000000) 60000000000) ++ ['m']
  else if 1000000000 < d then
    intDec (Int.tdiv (durTruncate d 1000000000) 1000000000) ++ ['s']
  else if 1000000 < d then
    intDec (Int.tdiv (durTruncate d 1000000) 1000000) ++ ['m', 's']
  else if 1000 < d then
    intDec (Int.tdiv (durTruncate d 1000) 1000) ++ ['µ', 's']
  else intDec d ++ ['n', 's']

/-!
## The expression dispatcher

Go's `time.Time` carries an absolute instant and a location.  The model
`GoTime` carries the instant as an unbounded count of nanoseconds since
Go's zero time (January 1, year 1, 00:00:00 UTC) — Go stores seconds and
nanoseconds separately, so its range is far wider than an `int64` of
nanoseconds, and its internal `div` used by `Truncate` computes the
exact remainder of that absolute count, always nonnegative — and the
location as a fixed zone offset in seconds east of UTC.  Locations are
modelled as fixed offsets (no daylight-saving transitions), under which
`AddDate(0, 0, n)` — convert to the local calendar date, shift the day,
convert back — adds exactly `n · 24h` of absolute time. -/

/-- A `time.Time` under the fixed-offset location model: the absolute
instant in nanoseconds since the zero time, and the zone offset in
seconds east of UTC. -/
structure GoTime where
  abs : Int
  offset : Int
deriving DecidableEq, Repr

/-- Nanoseconds in `time.Hour * 24`. -/
def nsPerDay : Int := 86400000000000

/-- Embedding of `Time.Truncate(d)`: for `d > 0`, round the absolute
time down to a multiple of `d` since the zero time (the remainder Go's
internal `div` returns is in `[0, d)`, which is `Int.emod`). -/
def timeTruncate (t : GoTime) (d : Int) : GoTime :=
  if d ≤ 0 then t else { t with abs := t.abs - t.abs % d }

/-- Embedding of `AddDate(0, 0, days)` under the fixed-offset location
model: shifting the local calendar day by `days` shifts the absolute
time by `days · 24h`. -/
def timeAddDate (t : GoTime) (days : Int) : GoTime :=
  { t with abs := t.abs + days * nsPerDay }

/-- Embedding of `Time.Add(d)`. -/
def timeAdd (t : GoTime) (d : Int) : GoTime :=
  { t with abs := t.abs + d }

/-- White-space class of Go's `strings.TrimSpace` (`unicode.IsSpace`):
tab, newline, vertical tab, form feed, carriage return, space, next
line, no-break space, and the Unicode category Zs. -/
def isSpaceGo (c : Char) : Bool :=
  (9 ≤ c.toNat && c.toNat ≤ 13) || c.toNat == 32 || c.toNat == 0x85 || c.toNat == 0xA0 ||
    c.toNat == 0x1680 || (0x2000 ≤ c.toNat && c.toNat ≤ 0x200A) ||
    c.toNat == 0x2028 || c.toNat == 0x2029 || c.toNat == 0x202F ||
    c.toNat == 0x205F || c.toNat == 0x3000

/-- Embedding of `strings.TrimSpace`: drop leading and trailing white
space. -/
def trimSpace (s : List Char) : List Char :=
  ((s.dropWhile isSpaceGo).reverse.dropWhile isSpaceGo).reverse

/-- Error outcomes of `ParseExprRef`: the `errNoTimeSpecified` value, a
`ParseDuration` error passed through, or an error of the standard
library's `time.Parse`. -/
inductive ExprErr
  | noTimeSpecified
  | durationErr (e : DurErr)
  | dateParseErr
deriving DecidableEq, Repr

/-- Embedding of `ParseExprRef`.  The branches that hand the input to
the Go standard library — `time.Parse` with the `"2006-01-02"` layout or
the RFC 3339 layout, and `ref.Format("2006")` — are functionality of the
`time` package, not of this repository, and are taken as the parameters
`timeParse` (layout and value to parsed time) and `refYear` (the
rendered year of the reference time).  Source:

    v := strings.TrimSpace(s)
    if v == "" { return time.Time{}, errNoTimeSpecified }
    switch v {
    case "today":     return ref.Truncate(time.Hour * 24), nil
    case "yesterday": return ref.Truncate(time.Hour*24).AddDate(0, 0, -1), nil
    case "tomorrow":  return ref.Truncate(time.Hour*24).AddDate(0, 0, 1), nil
    case "now":       return ref, nil
    }
    if f := v[0]; f == '+' || f == '-' {
      d, err := ParseDuration(v)
      if err != nil { return time.Time{}, err }
      return ref.Add(d), nil
    } else if len(v) == len(formatShortDate) {
      t, err := time.Parse(formatDate, ref.Format("2006")+"-"+v)   // "01-02"
      …
    } else if len(v) == len(formatDate) {
      t, err := time.Parse(formatDate, v)                          // "2006-01-02"
      …
    } else {
      t, err := time.Parse(time.RFC3339, v)
      …
    } -/
def ParseExprRef (timeParse : List Char → List Char → Except Unit GoTime)
    (refYear : GoTime → List Char) (s : List Char) (ref : GoTime) :
    Except ExprErr GoTime :=
  let v := trimSpace s
  if v = [] then .error .noTimeSpecified
  else if v = "today".data then .ok (timeTruncate ref (3600000000000 * 24))
  else if v = "yesterday".data then
    .ok (timeAddDate (timeTruncate ref (3600000000000 * 24)) (-1))
  else if v = "tomorrow".data then
    .ok (timeAddDate (timeTruncate ref (3600000000000 * 24)) 1)
  else if v = "now".data then .ok ref
  else
    match v with
    | [] => .error .noTimeSpecified    -- unreachable: v ≠ [] here
    | f :: _ =>
      if f = '+' ∨ f = '-' then
        match ParseDuration v with
        | .error e => .error (.durationErr e)
        | .ok d => .ok (timeAdd ref d)
      else if v.length = ("01-02".data).length then
        match timeParse "2006-01-02".data (refYear ref ++ '-' :: v) with
        | .error _ => .error .dateParseErr
        | .ok t => .ok t
      else if v.length = ("2006-01-02".data).length then
        match timeParse "2006-01-02".data v with
        | .error _ => .error .dateParseErr
        | .ok t => .ok t
      else
        match timeParse "2006-01-02T15:04:05Z07:00".data v with
        | .error _ => .error .dateParseErr
        | .ok t => .ok t

/-- Midnight at the start of the calendar day of `t` in `t`'s own
timezone: the instant whose local wall clock (absolute time plus zone
offset) reads 00:00:00 on `t`'s local day.  This definition renders the
words of the spec's claim and is compared against what the code
computes; it is not part of the source. -/
def localMidnight (t : GoTime) : GoTime :=
  { t with abs := t.abs - (t.abs + t.offset * 1000000000) % nsPerDay }

/-!
## Proof-side token machinery for the round-trip theorem
-/

/-- Rendering of one magnitude-and-unit token. -/
def renderTok (t : Nat × List Char × Nat) : List Char := natDigits t.1 ++ t.2.1

/-- Rendering of a token sequence. -/
def renderToks (ts : List (Nat × List Char × Nat)) : List Char :=
  (ts.map renderTok).flatten

/-- Total nanosecond value of a token sequence. -/
def tokSum (ts : List (Nat × List Char × Nat)) : Nat :=
  (ts.map fun t => t.1 * t.2.2).sum

/-- The tokens `formatHigh` emits for a nonnegative duration `n`, with
the components written by the successive divisions of the source. -/
def highToks (n : Nat) : List (Nat × List Char × Nat) :=
  (if n / 1000000000 / 60 / 60 / 24 ≠ 0 then
      [(n / 1000000000 / 60 / 60 / 24, ['d'], 86400000000000)] else []) ++
    ((if n / 1000000000 / 60 / 60 % 24 ≠ 0 then
        [(n / 1000000000 / 60 / 60 % 24, ['h'], 3600000000000)] else []) ++
      ((if n / 1000000000 / 60 % 60 ≠ 0 then
          [(n / 1000000000 / 60 % 60, ['m'], 60000000000)] else []) ++
        (if n / 1000000000 % 60 ≠ 0 then [(n / 1000000000 % 60, ['s'], 1000000000)] else [])))

/-- The tokens `formatLow` emits for a nonnegative duration `n`, with
the components written by the successive divisions of the source. -/
def lowToks (n : Nat) : List (Nat × List Char × Nat) :=
  (if n % 1000000000 / 1000 / 1000 ≠ 0 then
      [(n % 1000000000 / 1000 / 1000, ['m', 's'], 1000000)] else []) ++
    ((if n % 1000000000 / 1000 % 1000 ≠ 0 then
        [(n % 1000000000 / 1000 % 1000, ['µ', 's'], 1000)] else []) ++
      (if n % 1000000000 % 1000 ≠ 0 then [(n % 1000000000 % 1000, ['n', 's'], 1)] else []))

/-- The canonical token sequence of a nonnegative duration. -/
def natTokens (n : Nat) : List (Nat × List Char × Nat) := highToks n ++ lowToks n

/-!
## Digit runs and their values
-/

/-- A string does not begin with a decimal digit. -/
def headNotDigit (s : List Char) : Prop :=
  ∀ c, s.head? = some c → isGoDigit c = false

/-- Invariant of the fraction lexer's state: as long as at most `22`
digits have been accepted the scale is still the exact power of ten and
the numerator is below it; beyond that the scale has been rounded, but
it is at least `5 * 10^22` (binary64 rounding at most halves a positive
value, and the scale only grows), which dwarfs the numerator's hard
`2^63` overflow guard. -/
def fracInv (x : Nat) (sc : ℚ) : Prop :=
  (∃ k : Nat, k ≤ 22 ∧ sc = 10 ^ k ∧ x < 10 ^ k) ∨
    ((5 : ℚ) * 10 ^ 22 ≤ sc ∧ x ≤ 2 ^ 63)

/-- Folding the value accumulation over a digit run from an arbitrary
accumulator. -/
theorem digitsVal_foldl (b : List Char) (x : Nat) :
    b.foldl (fun a c => 10 * a + (c.toNat - '0'.toNat)) x =
      x * 10 ^ b.length + digitsVal b := by
  induction b generalizing x with
  | nil => simp [digitsVal]
  | cons c b ih =>
    simp only [List.foldl_cons, digitsVal, List.length_cons]
    rw [ih, ih (10 * 0 + (c.toNat - '0'.toNat))]
    ring

/-- Value of a digit run starting with `c`. -/
theorem digitsVal_cons (c : Char) (b : List Char) :
    digitsVal (c :: b) = (c.toNat - '0'.toNat) * 10 ^ b.length + digitsVal b := by
  simp only [digitsVal, List.foldl_cons]
  rw [digitsVal_foldl]
  simp only [digitsVal]
  ring

/-- The digit characters are the characters with code points 48–57. -/
theorem isGoDigit_iff (c : Char) : isGoDigit c = true ↔ 48 ≤ c.toNat ∧ c.toNat ≤ 57 := by
  constructor
  · intro h
    simp only [isGoDigit, Bool.and_eq_true, decide_eq_true_eq] at h
    exact ⟨h.1, h.2⟩
  · intro ⟨h1, h2⟩
    simp only [isGoDigit, Bool.and_eq_true, decide_eq_true_eq]
    exact ⟨h1, h2⟩

/-- The code point of `digitChar n`. -/
theorem digitChar_toNat (n : Nat) (h : n < 10) : (digitChar n).toNat = 48 + n := by
  interval_cases n <;> decide

/-- `digitChar` produces a digit character. -/
theorem isGoDigit_digitChar (n : Nat) (h : n < 10) : isGoDigit (digitChar n) = true := by
  rw [isGoDigit_iff, digitChar_toNat n h]
  omega

/-- Properties of the fuelled digit rendering, for sufficient fuel: it is
nonempty, consists of digit characters, and its value is the rendered
number. -/
theorem natDigitsAux_spec : ∀ (fuel n : Nat), n < 10 ^ fuel → 0 < fuel →
    natDigitsAux fuel n ≠ [] ∧ (∀ c ∈ natDigitsAux fuel n, isGoDigit c = true) ∧
      digitsVal (natDigitsAux fuel n) = n := by
  intro fuel
  induction fuel with
  | zero => intro n _ h; omega
  | succ fuel ih =>
    intro n hn _
    by_cases h10 : n < 10
    · refine ⟨by simp [natDigitsAux, h10], ?_, ?_⟩
      · intro c hc
        simp only [natDigitsAux, if_pos h10, List.mem_singleton] at hc
        exact hc ▸ isGoDigit_digitChar n h10
      · simp only [natDigitsAux, if_pos h10]
        show digitsVal [digitChar n] = n
        simp [digitsVal, digitChar_toNat n h10]
    · have hfuel : 0 < fuel := by
        rcases Nat.eq_zero_or_pos fuel with h | h
        · subst h; omega
        · exact h
      have hdiv : n / 10 < 10 ^ fuel := by
        rw [Nat.div_lt_iff_lt_mul (by omega)]
        calc n < 10 ^ (fuel + 1) := hn
        _ = 10 ^ fuel * 10 := by ring
      obtain ⟨hne, hdig, hval⟩ := ih (n / 10) hdiv hfuel
      rw [show natDigitsAux (fuel + 1) n =
        natDigitsAux fuel (n / 10) ++ [digitChar (n % 10)] by simp [natDigitsAux, h10]]
      refine ⟨by simp, ?_, ?_⟩
      · intro c hc
        rcases List.mem_append.mp hc with h | h
        · exact hdig c h
        · rw [List.mem_singleton.mp h]
          exact isGoDigit_digitChar _ (Nat.mod_lt _ (by omega))
      · simp only [digitsVal, List.foldl_append, List.foldl_cons, List.foldl_nil]
        simp only [digitsVal] at hval
        rw [hval, digitChar_toNat (n % 10) (Nat.mod_lt _ (by omega))]
        have h48 : '0'.toNat = 48 := rfl
        rw [h48]
        omega

/-- Every number is below `10 ^ (n + 1)`. -/
theorem lt_ten_pow (n : Nat) : n < 10 ^ (n + 1) := by
  calc n < 2 ^ n := Nat.lt_two_pow n
  _ ≤ 10 ^ n := Nat.pow_le_pow_left (by omega) n
  _ < 10 ^ (n + 1) := Nat.pow_lt_pow_right (by omega) (by omega)

/-- `natDigits` is never the empty string. -/
theorem natDigits_ne_nil (n : Nat) : natDigits n ≠ [] :=
  (natDigitsAux_spec (n + 1) n (lt_ten_pow n) (by omega)).1

/-- `natDigits` consists of digit characters. -/
theorem natDigits_digits (n : Nat) : ∀ c ∈ natDigits n, isGoDigit c = true :=
  (natDigitsAux_spec (n + 1) n (lt_ten_pow n) (by omega)).2.1

/-- `natDigits` renders the number it was given. -/
theorem digitsVal_natDigits (n : Nat) : digitsVal (natDigits n) = n :=
  (natDigitsAux_spec (n + 1) n (lt_ten_pow n) (by omega)).2.2

/-- Failing the digit test is exactly the break condition of the scans. -/
theorem isGoDigit_false_iff (c : Char) : isGoDigit c = false ↔ (c < '0' ∨ '9' < c) := by
  constructor
  · intro h
    by_cases h0 : '0' ≤ c
    · right
      by_contra h9
      have ht : isGoDigit c = true := by
        simp only [isGoDigit, Bool.and_eq_true, decide_eq_true_eq]
        exact ⟨h0, le_of_not_lt h9⟩
      rw [ht] at h
      exact Bool.noConfusion h
    · exact Or.inl (lt_of_not_le h0)
  · intro h
    simp only [isGoDigit, Bool.and_eq_false_iff, decide_eq_false_iff_not]
    rcases h with h | h
    · exact Or.inl (not_le_of_lt h)
    · exact Or.inr (not_le_of_lt h)

/-- A digit character does not satisfy the break condition. -/
theorem not_break_of_digit (c : Char) (h : isGoDigit c = true) : ¬(c < '0' ∨ '9' < c) := by
  intro hc
  rw [← isGoDigit_false_iff] at hc
  rw [h] at hc
  exact Bool.noConfusion hc

/-- What `leadingIntGo` does on a digit run followed by a non-digit: it
consumes exactly the run and accumulates its value, failing exactly when
the accumulated value passes `2^63` at some step — equivalently, by
monotonicity of the accumulator, when the total value passes `2^63`. -/
theorem leadingIntGo_digits (ds : List Char) : ∀ (rest : List Char) (x : Nat),
    (∀ c ∈ ds, isGoDigit c = true) → headNotDigit rest → x ≤ 2 ^ 63 →
    leadingIntGo x (ds ++ rest) =
      if x * 10 ^ ds.length + digitsVal ds ≤ 2 ^ 63
      then some (x * 10 ^ ds.length + digitsVal ds, rest) else none := by
  induction ds with
  | nil =>
    intro rest x _ hrest hx
    rw [if_pos (by simpa [digitsVal] using hx)]
    simp only [List.nil_append, List.length_nil, pow_zero, Nat.mul_one, digitsVal,
      List.foldl_nil, Nat.add_zero]
    match rest with
    | [] => rfl
    | c :: r =>
      have hc : isGoDigit c = false := hrest c rfl
      rw [isGoDigit_false_iff] at hc
      simp [leadingIntGo, hc]
  | cons c ds ih =>
    intro rest x hds hrest hx
    have hc : isGoDigit c = true := hds c (List.mem_cons_self c ds)
    have hcv : 48 ≤ c.toNat ∧ c.toNat ≤ 57 := (isGoDigit_iff c).mp hc
    have hval : digitsVal (c :: ds) = (c.toNat - '0'.toNat) * 10 ^ ds.length + digitsVal ds :=
      digitsVal_cons c ds
    have h48 : '0'.toNat = 48 := rfl
    have hpow : (1 : Nat) ≤ 10 ^ ds.length := Nat.one_le_pow _ _ (by omega)
    simp only [List.cons_append, leadingIntGo, if_neg (not_break_of_digit c hc)]
    by_cases hpre : 2 ^ 63 / 10 < x
    · rw [if_pos hpre, if_neg]
      simp only [List.length_cons, hval, not_le]
      have h10 : 2 ^ 63 < x * 10 := by omega
      calc 2 ^ 63 < x * 10 := h10
      _ ≤ x * (10 * 10 ^ ds.length) := by
          have : (10 : Nat) ≤ 10 * 10 ^ ds.length := by omega
          exact Nat.mul_le_mul_left x this
      _ = x * 10 ^ (ds.length + 1) := by ring
      _ ≤ x * 10 ^ (ds.length + 1) + ((c.toNat - '0'.toNat) * 10 ^ ds.length + digitsVal ds) := by
          omega
    · rw [if_neg hpre]
      set y := x * 10 + (c.toNat - '0'.toNat) with hy
      by_cases hpost : 2 ^ 63 < y
      · rw [if_pos hpost, if_neg]
        simp only [List.length_cons, hval, not_le]
        calc 2 ^ 63 < y := hpost
        _ ≤ y * 10 ^ ds.length := Nat.le_mul_of_pos_right y (by omega)
        _ = x * 10 ^ (ds.length + 1) + (c.toNat - '0'.toNat) * 10 ^ ds.length := by
            rw [hy]; ring
        _ ≤ x * 10 ^ (ds.length + 1) + ((c.toNat - '0'.toNat) * 10 ^ ds.length + digitsVal ds) := by
            omega
      · rw [if_neg hpost]
        have := ih rest y (fun d hd => hds d (List.mem_cons_of_mem c hd)) hrest (by omega)
        rw [List.append_eq, this]
        have harith : y * 10 ^ ds.length + digitsVal ds =
            x * 10 ^ (ds.length + 1) + digitsVal (c :: ds) := by
          rw [hval, hy]; ring
        rw [harith]
        simp only [List.length_cons]

/-- `leadingInt` on a digit run followed by a non-digit: succeeds with the
run's value exactly when that value is at most `2^63`. -/
theorem leadingInt_digits (ds rest : List Char)
    (hds : ∀ c ∈ ds, isGoDigit c = true) (hrest : headNotDigit rest) :
    leadingInt (ds ++ rest) =
      if digitsVal ds ≤ 2 ^ 63 then some (digitsVal ds, rest) else none := by
  have := leadingIntGo_digits ds rest 0 hds hrest (by omega)
  simpa [leadingInt] using this

/-- `leadingInt` after `natDigits`: recovers the rendered value. -/
theorem leadingInt_natDigits (v : Nat) (rest : List Char)
    (hv : v ≤ 2 ^ 63) (hrest : headNotDigit rest) :
    leadingInt (natDigits v ++ rest) = some (v, rest) := by
  rw [leadingInt_digits (natDigits v) rest (natDigits_digits v) hrest]
  rw [digitsVal_natDigits]
  exact if_pos hv

/-!
## Stepping the token loop
-/

/-- A unit character is neither `'.'` nor a digit. -/
theorem unitChar_spec (c : Char) (h : unitChar c = true) :
    c ≠ '.' ∧ isGoDigit c = false := by
  simp only [unitChar, Bool.not_eq_true', Bool.or_eq_false_iff, beq_eq_false_iff_ne] at h
  exact h

/-- A digit is not a unit character. -/
theorem unitChar_false_of_digit (c : Char) (h : isGoDigit c = true) :
    unitChar c = false := by
  simp [unitChar, h]

/-- The unit scan splits a unit run followed by a non-unit remainder at
exactly the boundary. -/
theorem takeWhile_append_all (p : Char → Bool) (u rest : List Char)
    (hu : ∀ c ∈ u, p c = true) (hrest : ∀ c, rest.head? = some c → p c = false) :
    (u ++ rest).takeWhile p = u ∧ (u ++ rest).dropWhile p = rest := by
  induction u with
  | nil =>
    simp only [List.nil_append]
    match rest with
    | [] => exact ⟨rfl, rfl⟩
    | c :: r =>
      have := hrest c rfl
      simp [List.takeWhile_cons, List.dropWhile_cons, this]
  | cons a u ih =>
    have ha : p a = true := hu a (List.mem_cons_self a u)
    have := ih (fun c hc => hu c (List.mem_cons_of_mem a hc))
    simp [List.takeWhile_cons, List.dropWhile_cons, ha, this.1, this.2]

/-- `fracStep` is the identity (no fraction) when the input does not
start with `'.'`. -/
theorem fracStep_not_dot (s : List Char) (h : ∀ c, s.head? = some c → c ≠ '.') :
    fracStep s = (0, 1, s, false) := by
  unfold fracStep
  split
  · next s2 => exact absurd rfl (h '.' rfl)
  · rfl

/-- The loop accepts the empty string with the accumulated total
(the `for s != ""` exit). -/
theorem parseDurLoop_nil (fuel d : Nat) : parseDurLoop fuel d [] = .ok d := by
  cases fuel <;> rfl

/-- One successful fraction-free token step of the loop: a rendered
magnitude `v` followed by a unit `u` of scale `unit`, followed by the
rest of the input (which is empty or starts with a digit), consumes the
token and adds `v * unit`, provided nothing overflows. -/
theorem parseDurLoop_token (fuel dAcc v unit : Nat) (u rest : List Char)
    (hlook : unitMap u = some unit)
    (hune : u ≠ []) (huc : ∀ c ∈ u, unitChar c = true)
    (hrest : rest = [] ∨ ∃ c r, rest = c :: r ∧ isGoDigit c = true)
    (hv : v ≤ 2 ^ 63 / unit)
    (hsum : dAcc + v * unit ≤ 2 ^ 63) :
    parseDurLoop (fuel + 1) dAcc (natDigits v ++ u ++ rest) =
      parseDurLoop fuel (dAcc + v * unit) rest := by
  obtain ⟨c0, t0, hsplit⟩ := List.exists_cons_of_ne_nil (natDigits_ne_nil v)
  have hc0 : isGoDigit c0 = true := by
    apply natDigits_digits v
    rw [hsplit]
    exact List.mem_cons_self c0 t0
  have hcons : natDigits v ++ u ++ rest = c0 :: (t0 ++ (u ++ rest)) := by
    rw [hsplit]
    simp
  -- facts about the head of `u ++ rest`
  obtain ⟨u0, u1, husplit⟩ := List.exists_cons_of_ne_nil hune
  have hu0 : unitChar u0 = true := by
    apply huc
    rw [husplit]
    exact List.mem_cons_self u0 u1
  have hu0s := unitChar_spec u0 hu0
  have hurhead : headNotDigit (u ++ rest) := by
    intro c hc
    rw [husplit] at hc
    simp only [List.cons_append, List.head?_cons, Option.some.injEq] at hc
    rw [← hc]
    exact hu0s.2
  -- the integer lexer consumes the rendered magnitude
  have hli : leadingInt (natDigits v ++ (u ++ rest)) = some (v, u ++ rest) := by
    apply leadingInt_natDigits
    · calc v ≤ 2 ^ 63 / unit := hv
      _ ≤ 2 ^ 63 := Nat.div_le_self _ _
    · exact hurhead
  -- the fraction step finds no dot
  have hfs : fracStep (u ++ rest) = (0, 1, u ++ rest, false) := by
    apply fracStep_not_dot
    intro c hc
    rw [husplit] at hc
    simp only [List.cons_append, List.head?_cons, Option.some.injEq] at hc
    rw [← hc]
    exact hu0s.1
  -- the unit scan splits at the unit boundary
  have hscan := takeWhile_append_all unitChar u rest huc (by
    intro c hc
    rcases hrest with h | ⟨c2, r2, hr, hd⟩
    · rw [h] at hc; exact Option.noConfusion hc
    · rw [hr] at hc
      simp only [List.head?_cons, Option.some.injEq] at hc
      rw [← hc]
      exact unitChar_false_of_digit c2 hd)
  -- lengths differ, so `pre` is true
  have hpre : ((u ++ rest).length ≠ (c0 :: (t0 ++ (u ++ rest))).length) := by
    simp only [List.length_cons, List.length_append]
    omega
  have hpre2 : ((u ++ rest).length ≠ (natDigits v ++ (u ++ rest)).length) := by
    simp only [List.length_append]
    have h1 : 0 < (natDigits v).length := List.length_pos.mpr (natDigits_ne_nil v)
    omega
  rw [hcons]
  simp only [parseDurLoop]
  rw [show (c0 :: (t0 ++ (u ++ rest))) = natDigits v ++ (u ++ rest) by rw [hsplit]; simp]
  simp only [hli]
  simp only [hfs]
  simp only [hc0, Bool.or_true, Bool.not_true, Bool.false_eq_true, if_false]
  rw [show (!decide ((u ++ rest).length ≠ (natDigits v ++ (u ++ rest)).length) && !false)
      = false by rw [decide_eq_true hpre2]; rfl]
  simp only [Bool.false_eq_true, if_false]
  rw [hscan.1, hscan.2, if_neg hune, hlook]
  have hv2 : ¬(2 ^ 63 / unit < v) := not_lt.mpr hv
  have hsum2 : ¬(2 ^ 63 < dAcc + v * unit) := not_lt.mpr hsum
  have hmod : dAcc + v * unit < 2 ^ 64 := by omega
  norm_num at hv2 hsum2 hmod ⊢
  rw [if_neg (not_lt.mpr hv2), Nat.mod_eq_of_lt hmod, if_neg (not_lt.mpr hsum2)]

/-- A token the loop can consume: its unit is in the table with the
given scale, non-empty, made of unit characters, and its magnitude
passes the per-token overflow guard. -/
def ValidTok (t : Nat × List Char × Nat) : Prop :=
  unitMap t.2.1 = some t.2.2 ∧ t.2.1 ≠ [] ∧ (∀ c ∈ t.2.1, unitChar c = true) ∧
    t.1 ≤ 2 ^ 63 / t.2.2

/-- A rendered token sequence is empty or starts with a digit. -/
theorem renderToks_head (toks : List (Nat × List Char × Nat)) :
    renderToks toks = [] ∨ ∃ c r, renderToks toks = c :: r ∧ isGoDigit c = true := by
  match toks with
  | [] => exact Or.inl rfl
  | t :: ts =>
    right
    obtain ⟨c0, t0, hsplit⟩ := List.exists_cons_of_ne_nil (natDigits_ne_nil t.1)
    refine ⟨c0, t0 ++ t.2.1 ++ renderToks ts, ?_, ?_⟩
    · show (List.map renderTok (t :: ts)).flatten = _
      simp only [List.map_cons, List.flatten_cons, renderTok, hsplit]
      simp [renderToks]
    · apply natDigits_digits t.1
      rw [hsplit]
      exact List.mem_cons_self c0 t0

/-- Unfolding one token of a rendering. -/
theorem renderToks_cons (t : Nat × List Char × Nat) (ts : List (Nat × List Char × Nat)) :
    renderToks (t :: ts) = (natDigits t.1 ++ t.2.1) ++ renderToks ts := by
  simp [renderToks, renderTok]

/-- Value of one token of a sequence. -/
theorem tokSum_cons (t : Nat × List Char × Nat) (ts : List (Nat × List Char × Nat)) :
    tokSum (t :: ts) = t.1 * t.2.2 + tokSum ts := by
  simp [tokSum]

/-- Running the loop over a rendered sequence of valid fraction-free
tokens accumulates their total value, for any sufficient fuel and any
starting accumulator that keeps the running total within `2^63`. -/
theorem parseDurLoop_toks (toks : List (Nat × List Char × Nat)) : ∀ (fuel dAcc : Nat),
    (∀ t ∈ toks, ValidTok t) → dAcc + tokSum toks ≤ 2 ^ 63 →
    (renderToks toks).length ≤ fuel →
    parseDurLoop fuel dAcc (renderToks toks) = .ok (dAcc + tokSum toks) := by
  induction toks with
  | nil =>
    intro fuel dAcc _ _ _
    show parseDurLoop fuel dAcc [] = _
    rw [parseDurLoop_nil]
    simp [tokSum]
  | cons t ts ih =>
    intro fuel dAcc hvalid hsum hfuel
    obtain ⟨hlook, hune, huc, hv⟩ := hvalid t (List.mem_cons_self t ts)
    have hlen : 0 < (natDigits t.1).length := List.length_pos.mpr (natDigits_ne_nil t.1)
    have hfuel1 : 1 ≤ fuel := by
      rw [renderToks_cons] at hfuel
      simp only [List.length_append] at hfuel
      omega
    obtain ⟨fuel2, rfl⟩ : ∃ f2, fuel = f2 + 1 := ⟨fuel - 1, by omega⟩
    rw [renderToks_cons, tokSum_cons] at *
    rw [List.append_assoc, ← List.append_assoc]
    have hstep := parseDurLoop_token fuel2 dAcc t.1 t.2.2 t.2.1 (renderToks ts)
      hlook hune huc (renderToks_head ts) hv (by omega)
    rw [hstep]
    have := ih fuel2 (dAcc + t.1 * t.2.2)
      (fun x hx => hvalid x (List.mem_cons_of_mem t hx)) (by omega) (by
        simp only [List.length_append] at hfuel
        omega)
    rw [this]
    congr 1
    omega

/-!
## The format side of the round trip
-/

/-- Prepending to an already-built suffix is appending a conditional
token. -/
theorem ite_append_left (c : Prop) [Decidable c] (a f : List Char) :
    (if c then a ++ f else f) = (if c then a else []) ++ f := by
  split <;> simp

/-- Rendering distributes over appending token sequences. -/
theorem renderToks_append (xs ys : List (Nat × List Char × Nat)) :
    renderToks (xs ++ ys) = renderToks xs ++ renderToks ys := by
  simp [renderToks]

/-- Rendering a conditional single token. -/
theorem renderToks_ite (c : Prop) [Decidable c] (t : Nat × List Char × Nat) :
    renderToks (if c then [t] else []) = if c then natDigits t.1 ++ t.2.1 else [] := by
  split <;> simp [renderToks, renderTok]

/-- `fmt.Sprintf("%d", v)` on a nonnegative value prints its digits. -/
theorem intDec_coe (x : Nat) : intDec (x : Int) = natDigits x := by
  unfold intDec
  rw [if_neg (by omega)]
  congr 1

/-- `formatHigh` on a nonnegative duration renders exactly its high
tokens. -/
theorem formatHigh_coe (n : Nat) : formatHigh (n : Int) = renderToks (highToks n) := by
  have hd9 : Int.tdiv (n : Int) (1000000000 : Int) = ((n / 1000000000 : Nat) : Int) := rfl
  have hd60 : ∀ a : Nat, Int.tdiv ((a : Nat) : Int) (60 : Int) = ((a / 60 : Nat) : Int) :=
    fun a => rfl
  have hd24 : ∀ a : Nat, Int.tdiv ((a : Nat) : Int) (24 : Int) = ((a / 24 : Nat) : Int) :=
    fun a => rfl
  have hm60 : ∀ a : Nat, Int.tmod ((a : Nat) : Int) (60 : Int) = ((a % 60 : Nat) : Int) :=
    fun a => rfl
  have hm24 : ∀ a : Nat, Int.tmod ((a : Nat) : Int) (24 : Int) = ((a % 24 : Nat) : Int) :=
    fun a => rfl
  simp only [formatHigh, hd9, hd60, hd24, hm60, hm24, intDec_coe, ne_eq, Nat.cast_eq_zero,
    Nat.cast_pos, ite_append_left, Nat.pos_iff_ne_zero]
  simp only [highToks, renderToks_append, renderToks_ite]

/-- `formatLow` on a nonnegative duration renders exactly its low
tokens. -/
theorem formatLow_coe (n : Nat) : formatLow (n : Int) = renderToks (lowToks n) := by
  have hm9 : Int.tmod (n : Int) (1000000000 : Int) = ((n % 1000000000 : Nat) : Int) := rfl
  have hdk : ∀ a : Nat, Int.tdiv ((a : Nat) : Int) (1000 : Int) = ((a / 1000 : Nat) : Int) :=
    fun a => rfl
  have hmk : ∀ a : Nat, Int.tmod ((a : Nat) : Int) (1000 : Int) = ((a % 1000 : Nat) : Int) :=
    fun a => rfl
  simp only [formatLow, hm9, hdk, hmk, intDec_coe, ne_eq, Nat.cast_eq_zero,
    Nat.cast_pos, ite_append_left, Nat.pos_iff_ne_zero]
  simp only [lowToks, renderToks_append, renderToks_ite]

/-- A conditional token contributes its value to the sum even when
omitted (an omitted token has value zero). -/
theorem ite_mul_sum (v u : Nat) : (if v ≠ 0 then v * u else 0) = v * u := by
  split
  · rfl
  · next h =>
    simp only [ne_eq, not_not] at h
    rw [h, Nat.zero_mul]

/-- Summing distributes over appending token sequences. -/
theorem tokSum_append (xs ys : List (Nat × List Char × Nat)) :
    tokSum (xs ++ ys) = tokSum xs + tokSum ys := by
  simp [tokSum]

/-- Sum of a conditional single token. -/
theorem tokSum_ite (c : Prop) [Decidable c] (t : Nat × List Char × Nat) :
    tokSum (if c then [t] else []) = if c then t.1 * t.2.2 else 0 := by
  split <;> simp [tokSum]

/-- The canonical tokens of `n` add back up to `n`: the decomposition of
a nanosecond count into days, hours, minutes, seconds, milliseconds,
microseconds and nanoseconds is exact. -/
theorem tokSum_natTokens (n : Nat) : tokSum (natTokens n) = n := by
  simp only [natTokens, highToks, lowToks, tokSum_append, tokSum_ite, ite_mul_sum]
  omega

/-- Introduction form for `ValidTok`. -/
theorem validTok_mk (v scale : Nat) (u : List Char)
    (h1 : unitMap u = some scale) (h2 : u ≠ []) (h3 : ∀ c ∈ u, unitChar c = true)
    (h4 : v ≤ 2 ^ 63 / scale) : ValidTok (v, u, scale) := ⟨h1, h2, h3, h4⟩

/-- Every canonical token of an in-range duration is valid for the
loop. -/
theorem natTokens_valid (n : Nat) (hn : n ≤ 2 ^ 63) : ∀ t ∈ natTokens n, ValidTok t := by
  have hD : n / 1000000000 / 60 / 60 / 24 ≤ 2 ^ 63 / 86400000000000 := by
    norm_num
    omega
  have hH : n / 1000000000 / 60 / 60 % 24 ≤ 2 ^ 63 / 3600000000000 := by
    norm_num
    omega
  have hM : n / 1000000000 / 60 % 60 ≤ 2 ^ 63 / 60000000000 := by
    norm_num
    omega
  have hS : n / 1000000000 % 60 ≤ 2 ^ 63 / 1000000000 := by
    norm_num
    omega
  have hMS : n % 1000000000 / 1000 / 1000 ≤ 2 ^ 63 / 1000000 := by
    norm_num
    omega
  have hUS : n % 1000000000 / 1000 % 1000 ≤ 2 ^ 63 / 1000 := by
    norm_num
    omega
  have hNS : n % 1000000000 % 1000 ≤ 2 ^ 63 / 1 := by
    norm_num
    omega
  intro t ht
  simp only [natTokens, highToks, lowToks, List.mem_append] at ht
  rcases ht with (h | h | h | h) | (h | h | h) <;>
    · split at h
      · rw [List.mem_singleton] at h
        subst h
        exact validTok_mk _ _ _ (by decide) (by decide) (by decide) (by assumption)
      · exact absurd h (List.not_mem_nil t)

/-- When the input starts with a digit, `ParseDuration` strips no sign,
takes no shortcut, and runs the token loop followed by the final range
check. -/
theorem ParseDuration_digit_head (c0 : Char) (t : List Char)
    (hc0 : isGoDigit c0 = true) (h0 : c0 :: t ≠ ['0']) :
    ParseDuration (c0 :: t) =
      match parseDurLoop (c0 :: t).length 0 (c0 :: t) with
      | .error e => .error e
      | .ok d => if 2 ^ 63 - 1 < d then .error .overflow
                 else .ok (goInt64OfUint64 d) := by
  have hminus : c0 ≠ '-' := by
    intro h
    rw [h] at hc0
    exact absurd hc0 (by decide)
  have hplus : c0 ≠ '+' := by
    intro h
    rw [h] at hc0
    exact absurd hc0 (by decide)
  have hmatch : (match c0 :: t with
      | '-' :: rest => (true, rest)
      | '+' :: rest => (false, rest)
      | x => (false, c0 :: t)) = (false, c0 :: t) := by
    split
    · next rest heq =>
      rw [List.cons.injEq] at heq
      exact absurd heq.1 hminus
    · next rest heq =>
      rw [List.cons.injEq] at heq
      exact absurd heq.1 hplus
    · rfl
  unfold ParseDuration
  simp only [hmatch, if_neg h0, if_neg (List.cons_ne_nil c0 t), Bool.false_eq_true, if_false]

/-- `FormatDuration` of a nonzero nonnegative duration renders its
canonical token sequence. -/
theorem FormatDuration_coe (n : Nat) (hn : n ≠ 0) :
    FormatDuration (n : Int) = renderToks (natTokens n) := by
  unfold FormatDuration
  rw [if_neg (by exact_mod_cast hn)]
  rw [formatHigh_coe, formatLow_coe, natTokens, renderToks_append]

/-- The canonical rendering of a nonzero duration is a nonempty string
that is not `"0"`: its first token renders at least two characters (a
digit run and a unit). -/
theorem renderToks_natTokens_ne (n : Nat) (hn : n ≠ 0) (hn2 : n ≤ 2 ^ 63) :
    renderToks (natTokens n) ≠ [] ∧ renderToks (natTokens n) ≠ ['0'] := by
  have hne : natTokens n ≠ [] := by
    intro h
    have := tokSum_natTokens n
    rw [h] at this
    simp [tokSum] at this
    exact hn this.symm
  obtain ⟨t, ts, hts⟩ := List.exists_cons_of_ne_nil hne
  rw [hts, renderToks_cons]
  obtain ⟨c0, t0, hsplit⟩ := List.exists_cons_of_ne_nil (natDigits_ne_nil t.1)
  have hu : t.2.1 ≠ [] := by
    have := natTokens_valid n hn2 t (hts ▸ List.mem_cons_self t ts)
    exact this.2.1
  obtain ⟨u0, u1, husplit⟩ := List.exists_cons_of_ne_nil hu
  rw [hsplit, husplit]
  constructor
  · simp
  · intro h
    have := congrArg List.length h
    simp only [List.length_cons, List.length_append, List.length_nil] at this
    omega

/-!
## Claim C1: the parse/format round trip
-/

/-- C1: for every non-negative Duration `d` (every `d` in
`[0, 2^63 - 1]` nanoseconds — whose canonical rendering never has a
fractional component), parsing the canonical formatted text recovers `d`
exactly: `ParseDuration (FormatDuration d) = d`. -/
theorem c1_parse_format_round_trip (d : Int) (h0 : 0 ≤ d) (h1 : d ≤ 2 ^ 63 - 1) :
    ParseDuration (FormatDuration d) = .ok d := by
  lift d to ℕ using h0 with n
  by_cases hn : n = 0
  · subst hn
    show ParseDuration (FormatDuration ((0 : Nat) : Int)) = .ok ((0 : Nat) : Int)
    rw [show ((0 : Nat) : Int) = (0 : Int) by rfl]
    decide
  · have hn63 : n ≤ 2 ^ 63 - 1 := by
      have hcast : (n : Int) ≤ 2 ^ 63 - 1 := h1
      omega
    have hn63b : n ≤ 2 ^ 63 := by omega
    rw [FormatDuration_coe n hn]
    obtain ⟨hne, hne0⟩ := renderToks_natTokens_ne n hn hn63b
    obtain ⟨c0, t, hct⟩ := List.exists_cons_of_ne_nil hne
    have hc0 : isGoDigit c0 = true := by
      rcases renderToks_head (natTokens n) with h | ⟨c, r, hcr, hd⟩
      · exact absurd h hne
      · rw [hct] at hcr
        rw [List.cons.injEq] at hcr
        rw [hcr.1]
        exact hd
    rw [hct, ParseDuration_digit_head c0 t hc0 (hct ▸ hne0), ← hct]
    rw [parseDurLoop_toks (natTokens n) (renderToks (natTokens n)).length 0
      (natTokens_valid n hn63b) (by rw [tokSum_natTokens]; omega) (le_refl _)]
    rw [tokSum_natTokens]
    simp only [Nat.zero_add]
    rw [if_neg (not_lt.mpr hn63)]
    unfold goInt64OfUint64
    rw [if_pos (by omega)]

/-- Witness for C1 at the concrete duration 90 minutes. -/
theorem c1_parse_format_round_trip_witness :
    0 ≤ (5400000000000 : Int) ∧ (5400000000000 : Int) ≤ 2 ^ 63 - 1 ∧
      ParseDuration (FormatDuration 5400000000000) = .ok 5400000000000 :=
  ⟨by decide, by decide,
    c1_parse_format_round_trip 5400000000000 (by decide) (by decide)⟩

/-!
## Claims C3, C5, C7: concrete parser behaviour
-/

/-- C3: at the end of `ParseDuration`, a negative sign negates the
unsigned accumulator, so `"-9223372036854775808ns"` succeeds and yields
exactly `-2^63` nanoseconds; with a non-negative sign an accumulator
exceeding `2^63 - 1` is rejected with Overflow, so
`"9223372036854775808ns"` fails while `"9223372036854775807ns"`
succeeds with value `2^63 - 1`. -/
theorem c3_sign_and_final_overflow :
    ParseDuration "-9223372036854775808ns".data = .ok (-9223372036854775808) ∧
      ParseDuration "9223372036854775808ns".data = .error .overflow ∧
      ParseDuration "9223372036854775807ns".data = .ok 9223372036854775807 :=
  ⟨by decide, by decide, by decide⟩

/-- C5: `"0"`, `"-0"` and `"+0"` all parse to zero through the no-unit
shortcut; the shortcut fires only when, after stripping one optional
sign, the remaining input is exactly `"0"` (so `"00"`, which also
denotes zero, is instead rejected for its missing unit); `"0s"` and
`"0.0h"` do not take the shortcut and still succeed with zero through
normal unit lookup. -/
theorem c5_zero_shortcut :
    ParseDuration "0".data = .ok 0 ∧ ParseDuration "-0".data = .ok 0 ∧
      ParseDuration "+0".data = .ok 0 ∧
      ParseDuration "00".data = .error .missingUnit ∧
      ParseDuration "0s".data = .ok 0 ∧ ParseDuration "0.0h".data = .ok 0 :=
  ⟨by decide, by decide, by decide, by decide, by decide, by decide⟩

/-- C7: the malformed inputs are rejected with the specified kinds:
`""`, `".s"` and `"-.s"` with InvalidDuration (no tokens, or no digits
before a unit), `"5"` with MissingUnit, and `"5x"` with UnknownUnit. -/
theorem c7_malformed_rejects :
    ParseDuration "".data = .error .invalidDuration ∧
      ParseDuration ".s".data = .error .invalidDuration ∧
      ParseDuration "-.s".data = .error .invalidDuration ∧
      ParseDuration "5".data = .error .missingUnit ∧
      ParseDuration "5x".data = .error .unknownUnit :=
  ⟨by decide, by decide, by decide, by decide, by decide⟩

/-!
## Claim C10: the simplified formatter
-/

/-- C10: `FormatSimplifiedDuration` sends every duration not strictly
greater than one microsecond — including every negative duration — to
the nanosecond default branch, printing the raw signed nanosecond count
with an `"ns"` suffix (so minus two hours renders as
`"-7200000000000ns"`), while the other branch guards are strict, so a
value exactly at a threshold falls to the next smaller unit (exactly one
hour renders as `"60m"`, and likewise at each other threshold). -/
theorem c10_simplified_branches :
    (∀ d : Int, d ≤ 1000 → FormatSimplifiedDuration d = intDec d ++ ['n', 's']) ∧
      FormatSimplifiedDuration (-7200000000000) = "-7200000000000ns".data ∧
      FormatSimplifiedDuration 3600000000000 = "60m".data ∧
      FormatSimplifiedDuration 86400000000000 = "24h".data ∧
      FormatSimplifiedDuration 60000000000 = "60s".data ∧
      FormatSimplifiedDuration 1000000000 = "1000ms".data ∧
      FormatSimplifiedDuration 1000000 = "1000µs".data ∧
      FormatSimplifiedDuration 1000 = "1000ns".data := by
  refine ⟨?_, by decide, by decide, by decide, by decide, by decide, by decide, by decide⟩
  intro d hd
  unfold FormatSimplifiedDuration
  rw [if_neg (by omega), if_neg (by omega), if_neg (by omega), if_neg (by omega),
    if_neg (by omega), if_neg (by omega)]

/-- Witness for C10's universally quantified conjunct at a concrete
sub-microsecond duration. -/
theorem c10_simplified_branches_witness :
    (500 : Int) ≤ 1000 ∧ FormatSimplifiedDuration 500 = intDec 500 ++ ['n', 's'] :=
  ⟨by decide, c10_simplified_branches.1 500 (by decide)⟩

/-!
## Claim C8: the canonical formatter on negative durations
-/

/-- Negation passes through Go's truncating remainder. -/
theorem tmod_neg_left (a b : Int) : Int.tmod (-a) b = -Int.tmod a b := by
  simp [Int.tmod_def, Int.neg_tdiv]
  ring

/-- `fmt.Sprintf("%d", v)` on a negative value prints a minus sign and
the digits of the magnitude. -/
theorem intDec_neg_coe (c : Nat) (h : c ≠ 0) : intDec (-(c : Int)) = '-' :: natDigits c := by
  unfold intDec
  rw [if_pos (by omega)]
  congr 2
  simp [Int.natAbs_neg]

/-- The hour/minute/second half of the rendering the claim is amended
to: each nonzero component of the magnitude `n`, printed with its own
leading minus sign; the day component, guarded by a strictly-positive
test in the source, is omitted.  Written from the amended claim's words;
compared against what the code computes. -/
def negHighToks (n : Nat) : List Char :=
  (if n / 1000000000 / 60 / 60 % 24 ≠ 0 then
      ('-' :: natDigits (n / 1000000000 / 60 / 60 % 24)) ++ ['h'] else []) ++
    ((if n / 1000000000 / 60 % 60 ≠ 0 then
        ('-' :: natDigits (n / 1000000000 / 60 % 60)) ++ ['m'] else []) ++
      (if n / 1000000000 % 60 ≠ 0 then
        ('-' :: natDigits (n / 1000000000 % 60)) ++ ['s'] else []))

/-- The microsecond/nanosecond half of the amended rendering; the
millisecond component, guarded by a strictly-positive test in the
source, is omitted. -/
def negLowToks (n : Nat) : List Char :=
  (if n % 1000000000 / 1000 % 1000 ≠ 0 then
      ('-' :: natDigits (n % 1000000000 / 1000 % 1000)) ++ ['µ', 's'] else []) ++
    (if n % 1000000000 % 1000 ≠ 0 then
      ('-' :: natDigits (n % 1000000000 % 1000)) ++ ['n', 's'] else [])

/-- The amended claim's canonical rendering of the negative duration of
magnitude `n`. -/
def negCanonRender (n : Nat) : List Char := negHighToks n ++ negLowToks n

/-- `formatHigh` on a negative duration: sign-carrying hour, minute and
second components; no day component. -/
theorem formatHigh_neg_coe (n : Nat) : formatHigh (-(n : Int)) = negHighToks n := by
  have hd9 : Int.tdiv (n : Int) (1000000000 : Int) = ((n / 1000000000 : Nat) : Int) := rfl
  have hd60 : ∀ a : Nat, Int.tdiv ((a : Nat) : Int) (60 : Int) = ((a / 60 : Nat) : Int) :=
    fun a => rfl
  have hd24 : ∀ a : Nat, Int.tdiv ((a : Nat) : Int) (24 : Int) = ((a / 24 : Nat) : Int) :=
    fun a => rfl
  have hm60 : ∀ a : Nat, Int.tmod ((a : Nat) : Int) (60 : Int) = ((a % 60 : Nat) : Int) :=
    fun a => rfl
  have hm24 : ∀ a : Nat, Int.tmod ((a : Nat) : Int) (24 : Int) = ((a % 24 : Nat) : Int) :=
    fun a => rfl
  simp only [formatHigh, Int.neg_tdiv, tmod_neg_left, hd9, hd60, hd24, hm60, hm24,
    ne_eq, neg_eq_zero, Nat.cast_eq_zero, ite_append_left]
  rw [if_neg (by omega)]
  simp only [negHighToks, ne_eq, List.nil_append]
  congr 1
  · split
    · next h => rw [intDec_neg_coe _ h]
    · rfl
  congr 1
  · split
    · next h => rw [intDec_neg_coe _ h]
    · rfl
  · split
    · next h => rw [intDec_neg_coe _ h]
    · rfl

/-- `formatLow` on a negative duration: sign-carrying microsecond and
nanosecond components; no millisecond component. -/
theorem formatLow_neg_coe (n : Nat) : formatLow (-(n : Int)) = negLowToks n := by
  have hm9 : Int.tmod (n : Int) (1000000000 : Int) = ((n % 1000000000 : Nat) : Int) := rfl
  have hdk : ∀ a : Nat, Int.tdiv ((a : Nat) : Int) (1000 : Int) = ((a / 1000 : Nat) : Int) :=
    fun a => rfl
  have hmk : ∀ a : Nat, Int.tmod ((a : Nat) : Int) (1000 : Int) = ((a % 1000 : Nat) : Int) :=
    fun a => rfl
  simp only [formatLow, Int.neg_tdiv, tmod_neg_left, hm9, hdk, hmk,
    ne_eq, neg_eq_zero, Nat.cast_eq_zero, ite_append_left]
  rw [if_neg (by omega)]
  simp only [negLowToks, ne_eq, List.nil_append]
  congr 1
  · split
    · next h => rw [intDec_neg_coe _ h]
    · rfl
  · split
    · next h => rw [intDec_neg_coe _ h]
    · rfl

/-- Counterexample to C8 as stated: the canonical rendering of the
negative duration minus two hours is `"-2h"`, which does carry a sign
marker (its first character is `'-'`). -/
theorem c8_counterexample_neg_sign_marker :
    FormatDuration (-7200000000000) = "-2h".data ∧
      (FormatDuration (-7200000000000)).head? = some '-' :=
  ⟨by decide, by decide⟩

/-- C8 amended: the formatter applies no special sign handling to a
negative duration; instead the sign propagates through the host's
truncating division and remainder into every component, so each nonzero
hour, minute, second, microsecond and nanosecond component is printed
with its own leading `'-'` (minus two hours renders as `"-2h"`), and the
day and millisecond components, which the source guards with
strictly-positive tests, are always omitted. -/
theorem c8_negative_componentwise_signs (x : Int) (hx : x < 0) :
    FormatDuration x = negCanonRender x.natAbs := by
  obtain ⟨n, rfl⟩ : ∃ n : Nat, x = -(n : Int) := ⟨x.natAbs, by omega⟩
  have hn : n ≠ 0 := by omega
  unfold FormatDuration
  rw [if_neg (by omega)]
  rw [formatHigh_neg_coe, formatLow_neg_coe]
  rw [show (-(n : Int)).natAbs = n by simp [Int.natAbs_neg]]
  rfl

/-- Witness for C8's amended claim at minus two hours. -/
theorem c8_negative_componentwise_signs_witness :
    (-7200000000000 : Int) < 0 ∧
      FormatDuration (-7200000000000) = negCanonRender (-7200000000000 : Int).natAbs :=
  ⟨by decide, c8_negative_componentwise_signs (-7200000000000) (by decide)⟩

/-!
## Claim C2: the "today" / "yesterday" / "tomorrow" constants
-/

/-- A stand-in for the standard library's `time.Parse` used to
instantiate `ParseExprRef` on inputs that never reach the date branches. -/
def stubTimeParse : List Char → List Char → Except Unit GoTime := fun _ _ => .error ()

/-- A stand-in for `ref.Format("2006")`, likewise unreachable on the
constant expressions. -/
def stubRefYear : GoTime → List Char := fun _ => []

/-- Counterexample to C2 as stated: for the reference instant at
12:00:00 UTC of day 2 of the zero year in the fixed zone UTC+1 (absolute
time `1.5` days, offset `3600` seconds), the code's `"today"` is the
instant `1` day (midnight of the UTC day containing the reference),
while midnight of the reference's own calendar day in its own timezone
is the instant `23` hours; the two differ. -/
theorem c2_counterexample_today_not_local_midnight :
    ParseExprRef stubTimeParse stubRefYear "today".data ⟨129600000000000, 3600⟩ =
      .ok ⟨86400000000000, 3600⟩ ∧
      localMidnight ⟨129600000000000, 3600⟩ ≠ ⟨86400000000000, 3600⟩ :=
  ⟨by decide, by decide⟩

/-- C2 amended: for every reference instant, `"today"` is the reference
rounded down to a whole multiple of 24 hours since Go's zero time — the
midnight of the UTC day containing it, with the location preserved — and
`"yesterday"` / `"tomorrow"` are that instant shifted by one calendar
day down and up; when the reference's zone offset is zero (UTC), that
instant coincides with midnight of the reference's own calendar day in
its own timezone. -/
theorem c2_today_truncates_utc_day
    (tp : List Char → List Char → Except Unit GoTime) (fy : GoTime → List Char)
    (ref : GoTime) :
    ParseExprRef tp fy "today".data ref = .ok (timeTruncate ref (3600000000000 * 24)) ∧
      ParseExprRef tp fy "yesterday".data ref =
        .ok (timeAddDate (timeTruncate ref (3600000000000 * 24)) (-1)) ∧
      ParseExprRef tp fy "tomorrow".data ref =
        .ok (timeAddDate (timeTruncate ref (3600000000000 * 24)) 1) ∧
      (ref.offset = 0 → timeTruncate ref (3600000000000 * 24) = localMidnight ref) := by
  refine ⟨?_, ?_, ?_, ?_⟩
  · have ht : trimSpace "today".data = "today".data := by decide
    unfold ParseExprRef
    rw [ht]
    simp
  · have ht : trimSpace "yesterday".data = "yesterday".data := by decide
    unfold ParseExprRef
    rw [ht]
    simp
  · have ht : trimSpace "tomorrow".data = "tomorrow".data := by decide
    unfold ParseExprRef
    rw [ht]
    simp
  · intro h0
    simp [timeTruncate, localMidnight, nsPerDay, h0]

/-- Witness for C2's amended claim: at a UTC reference the truncation is
the local midnight. -/
theorem c2_today_truncates_utc_day_witness :
    timeTruncate ⟨129600000000000, 0⟩ (3600000000000 * 24) =
      localMidnight ⟨129600000000000, 0⟩ :=
  (c2_today_truncates_utc_day stubTimeParse stubRefYear ⟨129600000000000, 0⟩).2.2.2 rfl

/-!
## Claim C4: the integer lexer's overflow boundary
-/

/-- A string headed by a non-digit character satisfies `headNotDigit`. -/
theorem headNotDigit_cons (c : Char) (r : List Char) (h : isGoDigit c = false) :
    headNotDigit (c :: r) := by
  intro c2 hc2
  simp only [List.head?_cons, Option.some.injEq] at hc2
  rw [← hc2]
  exact h

/-- The empty string satisfies `headNotDigit`. -/
theorem headNotDigit_nil : headNotDigit [] := fun _ hc => Option.noConfusion hc

/-- Counterexample to C4 as stated: on the digit string for `2^63` the
integer lexer succeeds — consuming the whole run and returning `2^63` —
even though the accumulated value exceeds the signed 64-bit maximum
`2^63 - 1`; so "errors exactly when the value would pass the signed
maximum" fails in the only-if direction at this input. -/
theorem c4_counterexample_lexer_accepts_2_pow_63 :
    leadingInt "9223372036854775808".data = some (9223372036854775808, []) ∧
      2 ^ 63 - 1 < 9223372036854775808 :=
  ⟨by decide, by decide⟩

/-- C4 amended: for every digit run (followed by a non-digit remainder),
leading-integer lexing errors if and only if the accumulated value would
pass `2^63` — one more than the signed 64-bit maximum, the slack that
later allows `-2^63` — at some step; by monotonicity of the
accumulation this is exactly when the whole run's value exceeds `2^63`.
The guard is still a bound check before each multiply-add (against
`⌊2^63/10⌋`) together with a check of the freshly accumulated value
(against `2^63`), and the boundary value `2^63` itself is accepted. -/
theorem c4_leadingInt_overflow_iff (ds rest : List Char)
    (hds : ∀ c ∈ ds, isGoDigit c = true) (hrest : headNotDigit rest) :
    leadingInt (ds ++ rest) = none ↔ 2 ^ 63 < digitsVal ds := by
  rw [leadingInt_digits ds rest hds hrest]
  split
  · next h =>
    constructor
    · intro hc
      exact absurd hc (by simp)
    · intro hc
      omega
  · next h =>
    constructor
    · intro _
      omega
    · intro _
      rfl

/-- Witness for C4's amended claim: twenty nines overflow the lexer. -/
theorem c4_leadingInt_overflow_iff_witness :
    (∀ c ∈ "99999999999999999999".data, isGoDigit c = true) ∧
      leadingInt ("99999999999999999999".data ++ ['s']) = none :=
  ⟨by decide,
    (c4_leadingInt_overflow_iff "99999999999999999999".data ['s'] (by decide)
      (headNotDigit_cons 's' [] (by decide))).mpr (by decide)⟩

/-!
## Correctness of the binary64 rounding model
-/

/-- With sufficient fuel, `bitsAux` computes the binary digit count:
zero for zero, and otherwise the exponent window `2^(k-1) ≤ n < 2^k`. -/
theorem bitsAux_spec : ∀ (fuel n : Nat), n ≤ fuel →
    (n = 0 → bitsAux fuel n = 0) ∧
      (0 < n → 2 ^ (bitsAux fuel n - 1) ≤ n ∧ n < 2 ^ bitsAux fuel n) := by
  intro fuel
  induction fuel with
  | zero =>
    intro n hn
    refine ⟨fun h => by rw [h]; rfl, fun h => absurd hn (by omega)⟩
  | succ fuel ih =>
    intro n hn
    constructor
    · intro h
      rw [h]
      simp [bitsAux]
    · intro hpos
      have hne : ¬(n = 0) := by omega
      rw [show bitsAux (fuel + 1) n = bitsAux fuel (n / 2) + 1 by simp [bitsAux, hne]]
      by_cases h2 : n / 2 = 0
      · have hn1 : n = 1 := by omega
        rw [h2, (ih 0 (by omega)).1 rfl, hn1]
        omega
      · have hdiv : n / 2 ≤ fuel := by omega
        obtain ⟨hlow, hhigh⟩ := (ih (n / 2) hdiv).2 (by omega)
        obtain ⟨b, hb⟩ : ∃ b, bitsAux fuel (n / 2) = b + 1 := by
          rcases Nat.eq_zero_or_pos (bitsAux fuel (n / 2)) with h | h
          · rw [h] at hhigh
            omega
          · exact ⟨bitsAux fuel (n / 2) - 1, by omega⟩
        rw [hb] at hlow hhigh
        rw [hb]
        have hp1 : (2:Nat) ^ (b + 1) = 2 * 2 ^ b := by ring
        have hp2 : (2:Nat) ^ (b + 1 + 1) = 4 * 2 ^ b := by ring
        simp only [Nat.add_sub_cancel] at hlow ⊢
        rw [hp2, hp1]
        omega

/-- The digit-count window for `bits`. -/
theorem bits_spec (n : Nat) (h : 0 < n) : 2 ^ (bits n - 1) ≤ n ∧ n < 2 ^ bits n :=
  (bitsAux_spec n n (le_refl n)).2 h

/-- `qlog2` computes the floor of the base-2 logarithm of a positive
rational: the unique exponent window containing it. -/
theorem qlog2_spec (q : ℚ) (hq : 0 < q) :
    (2:ℚ) ^ qlog2 q ≤ q ∧ q < 2 ^ (qlog2 q + 1) := by
  have hnum : 0 < q.num := Rat.num_pos.mpr hq
  set a := q.num.toNat with ha
  set b := q.den with hb
  have hapos : 0 < a := by omega
  have hbpos : 0 < b := q.pos
  have haqz : ((a : Int)) = q.num := Int.toNat_of_nonneg (by omega)
  have haq : ((a : ℚ)) = (q.num : ℚ) := by exact_mod_cast haqz
  have hqab : q = (a : ℚ) / (b : ℚ) := by
    rw [haq, hb]
    exact (Rat.num_div_den q).symm
  obtain ⟨haL, haH⟩ := bits_spec a hapos
  obtain ⟨hbL, hbH⟩ := bits_spec b hbpos
  have hbq0 : (0:ℚ) < (b:ℚ) := by exact_mod_cast hbpos
  -- upper window: q < 2 ^ (bits a - bits b + 1)
  have hup : q < (2:ℚ) ^ ((bits a : Int) - (bits b : Int) + 1) := by
    rw [hqab, div_lt_iff₀ hbq0]
    calc ((a:ℚ)) < (2:ℚ) ^ (bits a) := by exact_mod_cast haH
    _ = (2:ℚ) ^ ((bits a : Int)) := (zpow_natCast 2 (bits a)).symm
    _ = (2:ℚ) ^ ((bits a : Int) - (bits b : Int) + 1) * 2 ^ ((bits b : Int) - 1) := by
        rw [← zpow_add₀ (by norm_num : (2:ℚ) ≠ 0)]
        congr 1
        ring
    _ ≤ (2:ℚ) ^ ((bits a : Int) - (bits b : Int) + 1) * (b:ℚ) := by
        have h1 : (2:ℚ) ^ ((bits b : Int) - 1) ≤ (b:ℚ) := by
          have hb1 : 1 ≤ bits b := by
            by_contra hc
            have : bits b = 0 := by omega
            rw [this] at hbH
            omega
          rw [show (bits b : Int) - 1 = ((bits b - 1 : Nat) : Int) by omega, zpow_natCast]
          exact_mod_cast hbL
        have h2 : (0:ℚ) < 2 ^ ((bits a : Int) - (bits b : Int) + 1) := zpow_pos (by norm_num) _
        exact mul_le_mul_of_nonneg_left h1 (le_of_lt h2)
  -- lower window: 2 ^ (bits a - bits b - 1) < q
  have hlo : (2:ℚ) ^ ((bits a : Int) - (bits b : Int) - 1) < q := by
    rw [hqab, lt_div_iff₀ hbq0]
    calc (2:ℚ) ^ ((bits a : Int) - (bits b : Int) - 1) * (b:ℚ)
        < (2:ℚ) ^ ((bits a : Int) - (bits b : Int) - 1) * 2 ^ ((bits b : Int)) := by
          have h2 : (0:ℚ) < 2 ^ ((bits a : Int) - (bits b : Int) - 1) := zpow_pos (by norm_num) _
          have h3 : ((b:ℚ)) < 2 ^ ((bits b : Int)) := by
            rw [zpow_natCast]
            exact_mod_cast hbH
          exact mul_lt_mul_of_pos_left h3 h2
    _ = (2:ℚ) ^ ((bits a : Int) - 1) := by
        rw [← zpow_add₀ (by norm_num : (2:ℚ) ≠ 0)]
        congr 1
        ring
    _ ≤ ((a:ℚ)) := by
        have ha1 : 1 ≤ bits a := by
          by_contra hc
          have : bits a = 0 := by omega
          rw [this] at haH
          omega
        rw [show (bits a : Int) - 1 = ((bits a - 1 : Nat) : Int) by omega, zpow_natCast]
        exact_mod_cast haL
  -- unfold qlog2 and use the window
  unfold qlog2
  simp only [← ha, ← hb]
  split
  · next h => exact ⟨h, hup⟩
  · next h =>
    constructor
    · have := hlo
      rw [show (bits a : Int) - (bits b : Int) - 1 =
        ((bits a : Int) - (bits b : Int) - 1) by rfl] at this
      exact le_of_lt (by
        calc (2:ℚ) ^ ((bits a : Int) - (bits b : Int) - 1) < q := hlo)
    · rw [sub_add_cancel]
      exact lt_of_not_le h

/-- `ratFloor` is the floor. -/
theorem ratFloor_eq (q : ℚ) : ratFloor q = ⌊q⌋ := Rat.floor_def.symm

/-- Binary64 rounding is the identity on whole numbers below `2^53`
(they are exactly representable). -/
theorem f64round_natCast (k : Nat) (hk : 0 < k) (hk53 : k < 2 ^ 53) :
    f64round (k : ℚ) = (k : ℚ) := by
  have hq : (0:ℚ) < (k:ℚ) := by exact_mod_cast hk
  obtain ⟨hL, hH⟩ := qlog2_spec (k:ℚ) hq
  set L := qlog2 (k:ℚ) with hLdef
  have hL0 : 0 ≤ L := by
    by_contra hc
    have hL1 : L + 1 ≤ 0 := by omega
    have : (2:ℚ) ^ (L + 1) ≤ 2 ^ (0:Int) := zpow_le_zpow_right₀ (by norm_num) hL1
    rw [show ((2:ℚ) ^ (0:Int)) = 1 by norm_num] at this
    have hk1 : (1:ℚ) ≤ (k:ℚ) := by exact_mod_cast hk
    linarith
  have hL52 : L ≤ 52 := by
    by_contra hc
    have h53 : (53:Int) ≤ L := by omega
    have : (2:ℚ) ^ (53:Int) ≤ 2 ^ L := zpow_le_zpow_right₀ (by norm_num) h53
    have hk53q : (k:ℚ) < 2 ^ (53:Int) := by
      rw [show ((2:ℚ) ^ (53:Int)) = ((2 ^ 53 : Nat) : ℚ) by norm_num]
      exact_mod_cast hk53
    linarith
  set l := L.toNat with hldef
  have hLl : L = (l : Int) := by omega
  -- the scaled mantissa is the integer k * 2 ^ (52 - l)
  have hmant : (k : ℚ) / 2 ^ (L - 52) = ((k * 2 ^ (52 - l) : Nat) : ℚ) := by
    rw [show L - 52 = -((52 - l : Nat) : Int) by omega, zpow_neg, zpow_natCast, div_eq_mul_inv, inv_inv]
    push_cast
    ring
  unfold f64round
  rw [if_neg (not_le.mpr hq)]
  simp only [← hLdef, hmant, ratFloor_eq, Int.floor_natCast]
  rw [show ((k * 2 ^ (52 - l) : Nat) : ℚ) - ((k * 2 ^ (52 - l) : Nat) : Int) = 0 by
    push_cast
    ring]
  rw [if_pos (by norm_num)]
  rw [show (((k * 2 ^ (52 - l) : Nat) : Int) : ℚ) = (k : ℚ) / 2 ^ (L - 52) by
    rw [hmant]
    push_cast
    ring]
  rw [div_mul_cancel₀]
  exact zpow_ne_zero _ (by norm_num)

/-- Binary64 rounding never returns a negative value. -/
theorem f64round_nonneg (q : ℚ) : 0 ≤ f64round q := by
  unfold f64round
  split
  · exact le_refl 0
  · next h =>
    have hq : 0 < q := lt_of_not_le h
    have hm : (0:ℚ) < q / 2 ^ (qlog2 q - 52) := by
      apply div_pos hq (zpow_pos (by norm_num) _)
    have hfl : 0 ≤ ratFloor (q / 2 ^ (qlog2 q - 52)) := by
      rw [ratFloor_eq]
      exact Int.floor_nonneg.mpr (le_of_lt hm)
    have hpow : (0:ℚ) < 2 ^ (qlog2 q - 52) := zpow_pos (by norm_num) _
    apply mul_nonneg _ (le_of_lt hpow)
    have hfl1 : (0:Int) ≤ ratFloor (q / 2 ^ (qlog2 q - 52)) + 1 := by omega
    split
    · exact_mod_cast hfl
    · split
      · exact_mod_cast hfl1
      · split
        · exact_mod_cast hfl
        · exact_mod_cast hfl1

/-- Binary64 rounding of a nonnegative value at most doubles it (the
crude bound that suffices here: the rounding error is below one unit in
the last place, which is below the value itself). -/
theorem f64round_le_two_mul (q : ℚ) (hq : 0 ≤ q) : f64round q ≤ 2 * q := by
  unfold f64round
  split
  · linarith
  · next h =>
    dsimp only
    have hq0 : 0 < q := lt_of_not_le h
    obtain ⟨hL, hH⟩ := qlog2_spec q hq0
    set L := qlog2 q with hLdef
    set m : ℚ := q / 2 ^ (L - 52) with hm
    have hpow : (0:ℚ) < 2 ^ (L - 52) := zpow_pos (by norm_num) _
    have hmq : m * 2 ^ (L - 52) = q := div_mul_cancel₀ q (ne_of_gt hpow)
    have hfl : (ratFloor m : ℚ) ≤ m := by
      rw [ratFloor_eq]
      exact Int.floor_le m
    have hmr : ∀ mr : Int, (mr : ℚ) ≤ m + 1 → (mr : ℚ) * 2 ^ (L - 52) ≤ q + 2 ^ (L - 52) := by
      intro mr hmrle
      calc (mr : ℚ) * 2 ^ (L - 52) ≤ (m + 1) * 2 ^ (L - 52) :=
        mul_le_mul_of_nonneg_right hmrle (le_of_lt hpow)
      _ = q + 2 ^ (L - 52) := by rw [add_mul, one_mul, hmq]
    have hpq : (2:ℚ) ^ (L - 52) ≤ q := by
      calc (2:ℚ) ^ (L - 52) ≤ 2 ^ L := zpow_le_zpow_right₀ (by norm_num) (by omega)
      _ ≤ q := hL
    have hgoal : ∀ mr : Int, (mr : ℚ) ≤ m + 1 → (mr : ℚ) * 2 ^ (L - 52) ≤ 2 * q := by
      intro mr hmrle
      calc (mr : ℚ) * 2 ^ (L - 52) ≤ q + 2 ^ (L - 52) := hmr mr hmrle
      _ ≤ q + q := by linarith
      _ = 2 * q := by ring
    split
    · exact hgoal _ (by linarith)
    · split
      · apply hgoal
        push_cast
        linarith
      · split
        · exact hgoal _ (by linarith)
        · apply hgoal
          push_cast
          linarith

/-- Binary64 rounding reduces a positive value by at most half of it
(the rounding error is below one unit in the last place, which is below
`2^-52` of the value). -/
theorem f64round_half_le (q : ℚ) (hq : 0 < q) : q / 2 ≤ f64round q := by
  unfold f64round
  split
  · next h => exact absurd h (not_le.mpr hq)
  · dsimp only
    obtain ⟨hL, hH⟩ := qlog2_spec q hq
    set L := qlog2 q with hLdef
    set m : ℚ := q / 2 ^ (L - 52) with hm
    have hpow : (0:ℚ) < 2 ^ (L - 52) := zpow_pos (by norm_num) _
    have hmq : m * 2 ^ (L - 52) = q := div_mul_cancel₀ q (ne_of_gt hpow)
    have hfl : m - 1 < (ratFloor m : ℚ) := by
      rw [ratFloor_eq]
      exact Int.sub_one_lt_floor m
    have hsmall : (2:ℚ) ^ (L - 52) ≤ q / 2 := by
      have h1 : (2:ℚ) ^ (L - 52) * 2 ≤ 2 ^ L := by
        rw [show (2:ℚ) ^ (L - 52) * 2 = 2 ^ (L - 51) by
          rw [← zpow_add_one₀ (by norm_num : (2:ℚ) ≠ 0)]
          congr 1
          ring]
        exact zpow_le_zpow_right₀ (by norm_num) (by omega)
      linarith
    have hgoal : ∀ mr : Int, (ratFloor m : ℚ) ≤ (mr : ℚ) →
        q / 2 ≤ (mr : ℚ) * 2 ^ (L - 52) := by
      intro mr hge
      have hgt : m - 1 < (mr : ℚ) := lt_of_lt_of_le hfl hge
      calc q / 2 = q - q / 2 := by ring
      _ ≤ q - 2 ^ (L - 52) := by linarith
      _ = (m - 1) * 2 ^ (L - 52) := by rw [sub_mul, one_mul, hmq]
      _ ≤ (mr : ℚ) * 2 ^ (L - 52) := mul_le_mul_of_nonneg_right (le_of_lt hgt) (le_of_lt hpow)
    split
    · exact hgoal _ (le_refl _)
    · split
      · exact hgoal _ (by push_cast; linarith)
      · split
        · exact hgoal _ (le_refl _)
        · exact hgoal _ (by push_cast; linarith)

/-- Binary64 rounding is the identity on every value `k * 2^n` with
`0 < k < 2^53`: such values are exactly representable. -/
theorem f64round_natCast_mul_pow2 (k : Nat) (hk : 0 < k) (hk53 : k < 2 ^ 53) (n : Nat) :
    f64round ((k : ℚ) * 2 ^ n) = (k : ℚ) * 2 ^ n := by
  set q : ℚ := (k : ℚ) * 2 ^ n with hqdef
  have hq : (0:ℚ) < q := by
    apply mul_pos
    · exact_mod_cast hk
    · positivity
  obtain ⟨hL, hH⟩ := qlog2_spec q hq
  set L := qlog2 q with hLdef
  have hL52 : L ≤ 52 + n := by
    by_contra hc
    have h53 : (53 + (n:Int)) ≤ L := by omega
    have hmono : (2:ℚ) ^ (53 + (n:Int)) ≤ 2 ^ L := zpow_le_zpow_right₀ (by norm_num) h53
    have hqlt : q < 2 ^ (53 + (n:Int)) := by
      rw [zpow_add₀ (by norm_num : (2:ℚ) ≠ 0), zpow_natCast]
      rw [hqdef]
      apply mul_lt_mul_of_pos_right _ (by positivity)
      calc (k:ℚ) < ((2 ^ 53 : Nat) : ℚ) := by exact_mod_cast hk53
      _ = (2:ℚ) ^ (53 : Int) := by push_cast; norm_num
    linarith
  set l : Nat := (52 + (n:Int) - L).toNat with hldef
  have hLl : (l : Int) = 52 + (n:Int) - L := by
    rw [hldef]
    exact Int.toNat_of_nonneg (by omega)
  have hmant : q / 2 ^ (L - 52) = ((k * 2 ^ l : Nat) : ℚ) := by
    rw [hqdef]
    rw [show L - 52 = (n : Int) - (l : Int) by omega]
    rw [zpow_sub₀ (by norm_num : (2:ℚ) ≠ 0), zpow_natCast, zpow_natCast]
    push_cast
    rw [div_div_eq_mul_div, div_eq_iff (by positivity : ((2:ℚ) ^ n) ≠ 0)]
    ring
  unfold f64round
  rw [if_neg (not_le.mpr hq)]
  simp only [← hLdef, hmant, ratFloor_eq, Int.floor_natCast]
  rw [show ((k * 2 ^ l : Nat) : ℚ) - ((k * 2 ^ l : Nat) : Int) = 0 by push_cast; ring]
  rw [if_pos (by norm_num)]
  rw [show (((k * 2 ^ l : Nat) : Int) : ℚ) = q / 2 ^ (L - 52) by
    rw [hmant]
    push_cast
    ring]
  rw [div_mul_cancel₀]
  exact zpow_ne_zero _ (by norm_num)

/-- Every power of ten up to `10^22` is exactly representable in
binary64 (`10^j = 5^j * 2^j` with `5^22 < 2^53`), so rounding fixes
it. -/
theorem f64round_pow10 (j : Nat) (hj : j ≤ 22) : f64round ((10:ℚ) ^ j) = 10 ^ j := by
  have h5 : (5 : Nat) ^ j < 2 ^ 53 :=
    lt_of_le_of_lt (Nat.pow_le_pow_right (by norm_num) hj) (by norm_num)
  have h10 : ((5 ^ j : Nat) : ℚ) * 2 ^ j = (10:ℚ) ^ j := by
    push_cast
    rw [← mul_pow]
    norm_num
  rw [← h10]
  exact f64round_natCast_mul_pow2 (5 ^ j) (pow_pos (by norm_num) j) h5 j

/-- The first `scale *= 10` of the fraction lexer produces exactly
`10`. -/
theorem f64mul_one_ten : f64mul (1:ℚ) 10 = 10 := by
  unfold f64mul
  rw [one_mul]
  rw [show (10:ℚ) = ((10:Nat):ℚ) by norm_num]
  exact f64round_natCast 10 (by norm_num) (by norm_num)

/-- The fraction-lexer invariant holds at the initial state `(0, 1)`. -/
theorem fracInv_zero_one : fracInv 0 1 :=
  Or.inl ⟨0, by norm_num, by norm_num, by norm_num⟩

/-- What the invariant yields at the end of the scan: the scale is
positive and dominates the numerator. -/
theorem fracInv_bounds (x : Nat) (sc : ℚ) (h : fracInv x sc) :
    0 < sc ∧ (x : ℚ) < sc := by
  rcases h with ⟨k, _, hsc, hx⟩ | ⟨hsc, hx⟩
  · constructor
    · rw [hsc]
      positivity
    · rw [hsc]
      calc (x:ℚ) < ((10 ^ k : Nat) : ℚ) := by exact_mod_cast hx
      _ = (10:ℚ) ^ k := by push_cast; ring
  · constructor
    · linarith [show (0:ℚ) < 5 * 10 ^ 22 by norm_num]
    · calc (x:ℚ) ≤ ((2 ^ 63 : Nat) : ℚ) := by exact_mod_cast hx
      _ < 5 * 10 ^ 22 := by push_cast; norm_num
      _ ≤ sc := hsc

/-- One accepted digit preserves the fraction-lexer invariant: while at
most `21` digits were in, the scale multiplication is exact; the step to
the `23rd` and every later one at least halves the exact tenfold,
keeping the scale above `5 * 10^22`, far beyond the numerator's hard
`2^63` guard. -/
theorem fracInv_step (x : Nat) (sc : ℚ) (dg : Nat) (hdg : dg ≤ 9)
    (hguard : x * 10 + dg ≤ 2 ^ 63) (hinv : fracInv x sc) :
    fracInv (x * 10 + dg) (f64mul sc 10) := by
  rcases hinv with ⟨k, hk22, hsc, hx⟩ | ⟨hsc, hx⟩
  · by_cases hk : k ≤ 21
    · left
      refine ⟨k + 1, by omega, ?_, ?_⟩
      · rw [hsc]
        unfold f64mul
        rw [show ((10:ℚ) ^ k * 10) = 10 ^ (k + 1) by ring]
        exact f64round_pow10 (k + 1) (by omega)
      · calc x * 10 + dg < (x + 1) * 10 := by omega
        _ ≤ 10 ^ k * 10 := by omega
        _ = 10 ^ (k + 1) := (pow_succ 10 k).symm
    · right
      have hk22' : k = 22 := by omega
      refine ⟨?_, hguard⟩
      rw [hsc, hk22']
      unfold f64mul
      rw [show ((10:ℚ) ^ 22 * 10) = 10 ^ 23 by ring]
      have hhalf := f64round_half_le ((10:ℚ) ^ 23) (by positivity)
      calc (5:ℚ) * 10 ^ 22 = 10 ^ 23 / 2 := by norm_num
      _ ≤ f64round (10 ^ 23) := hhalf
  · right
    refine ⟨?_, hguard⟩
    unfold f64mul
    have hscpos : (0:ℚ) < sc := by
      linarith [show (0:ℚ) < 5 * 10 ^ 22 by norm_num]
    have hhalf := f64round_half_le (sc * 10) (by positivity)
    linarith

/-- Bound on the fractional contribution of a token with unit `s`
(`10^9` ns): since the fraction numerator is always below its scale,
the three roundings cannot push the added value past `16·10^9`. -/
theorem fracAdd_le (f : Nat) (sc : ℚ) (hsc : 0 < sc) (hf : (f:ℚ) < sc) :
    fracAdd f 1000000000 sc ≤ 16000000000 := by
  unfold fracAdd f64ofNat f64mul f64div f64toUint64
  have hscq0 : (0:ℚ) < sc := hsc
  have hfq : ((f:ℚ)) < sc := hf
  have hf0 : (0:ℚ) ≤ (f:ℚ) := by positivity
  have hA0 : 0 ≤ f64round (f:ℚ) := f64round_nonneg _
  have hA : f64round (f:ℚ) ≤ 2 * (f:ℚ) := f64round_le_two_mul _ hf0
  have h90 : 0 ≤ f64round (((1000000000:Nat)):ℚ) := f64round_nonneg _
  have h9 : f64round (((1000000000:Nat)):ℚ) ≤ 2 * (((1000000000:Nat)):ℚ) :=
    f64round_le_two_mul _ (by positivity)
  have hB0 : 0 ≤ f64round (f64round (((1000000000:Nat)):ℚ) / sc) := f64round_nonneg _
  have hB : f64round (f64round (((1000000000:Nat)):ℚ) / sc) ≤
      2 * (f64round (((1000000000:Nat)):ℚ) / sc) :=
    f64round_le_two_mul _ (div_nonneg h90 (le_of_lt hscq0))
  have hB2 : f64round (f64round (((1000000000:Nat)):ℚ) / sc) ≤ 4000000000 / sc := by
    calc f64round (f64round (((1000000000:Nat)):ℚ) / sc) ≤
        2 * (f64round (((1000000000:Nat)):ℚ) / sc) := hB
    _ ≤ 2 * ((2 * (((1000000000:Nat)):ℚ)) / sc) := by gcongr
    _ = 4000000000 / sc := by
        push_cast
        ring
  have hR : f64round (f64round (f:ℚ) * f64round (f64round (((1000000000:Nat)):ℚ) / sc)) ≤
      2 * (f64round (f:ℚ) * f64round (f64round (((1000000000:Nat)):ℚ) / sc)) :=
    f64round_le_two_mul _ (mul_nonneg hA0 hB0)
  have hR2 : f64round (f64round (f:ℚ) * f64round (f64round (((1000000000:Nat)):ℚ) / sc)) <
      16000000000 := by
    calc f64round (f64round (f:ℚ) * f64round (f64round (((1000000000:Nat)):ℚ) / sc))
        ≤ 2 * (f64round (f:ℚ) * f64round (f64round (((1000000000:Nat)):ℚ) / sc)) := hR
    _ ≤ 2 * ((2 * (f:ℚ)) * (4000000000 / sc)) := by gcongr
    _ = 16000000000 * ((f:ℚ) / sc) := by ring
    _ < 16000000000 * 1 := by
        apply mul_lt_mul_of_pos_left _ (by norm_num)
        rw [div_lt_one hscq0]
        exact hfq
    _ = 16000000000 := by ring
  have hfloor :
      ratFloor (f64round (f64round (f:ℚ) *
        f64round (f64round (((1000000000:Nat)):ℚ) / sc))) < 16000000000 := by
    rw [ratFloor_eq]
    exact Int.floor_lt.mpr (by exact_mod_cast hR2)
  omega

/-- The fractional contribution of `"1.5h"`: the binary64 computation
`5 * (3.6e12 / 10)` is exact (every intermediate value is a whole number
below `2^53`), giving exactly half an hour in nanoseconds. -/
theorem fracAdd_half_hour : fracAdd 5 3600000000000 10 = 1800000000000 := by
  unfold fracAdd f64ofNat f64mul f64div f64toUint64
  rw [f64round_natCast 5 (by norm_num) (by norm_num)]
  rw [f64round_natCast 3600000000000 (by norm_num) (by norm_num)]
  rw [show (((3600000000000:Nat)):ℚ) / (10:ℚ) = (((360000000000:Nat)):ℚ) by
    push_cast
    norm_num]
  rw [f64round_natCast 360000000000 (by norm_num) (by norm_num)]
  rw [show (((5:Nat)):ℚ) * (((360000000000:Nat)):ℚ) = (((1800000000000:Nat)):ℚ) by
    push_cast
    norm_num]
  rw [f64round_natCast 1800000000000 (by norm_num) (by norm_num)]
  rw [ratFloor_eq, Int.floor_natCast]
  rfl

/-!
## Claim C6: fractional parsing of "1.5h"
-/

/-- C6: `ParseDuration "1.5h"` succeeds and returns exactly
`5400000000000` nanoseconds (90 minutes): the fractional part is scaled
through double-precision floating point as
`fracNumerator * (unitScale / fracScale)` — computed exactly here — and
added to the exact integer part. -/
theorem c6_one_point_five_hours :
    ParseDuration "1.5h".data = .ok 5400000000000 := by
  simp [ParseDuration, parseDurLoop, leadingInt, leadingIntGo, fracStep, leadingFraction,
    leadingFracGo, unitChar, isGoDigit, unitMap, f64mul_one_ten, fracAdd_half_hour,
    goInt64OfUint64]

/-!
## Claim C9: fractional consumption never fails
-/

/-- What `leadingFracGo` does on a digit run followed by a non-digit:
it always consumes exactly the run (no failure is possible); once the
overflow flag is set neither the numerator nor the scale changes any
more; and the state invariant `fracInv` — which keeps the scale
positive and above the numerator — is preserved. -/
theorem leadingFracGo_spec (ds : List Char) : ∀ (rest : List Char) (x : Nat) (sc : ℚ)
    (b : Bool),
    (∀ c ∈ ds, isGoDigit c = true) → headNotDigit rest →
    ∃ x2 sc2, leadingFracGo x sc b (ds ++ rest) = (x2, sc2, rest) ∧
      (b = true → x2 = x ∧ sc2 = sc) ∧ (fracInv x sc → fracInv x2 sc2) := by
  induction ds with
  | nil =>
    intro rest x sc b _ hrest
    refine ⟨x, sc, ?_, fun _ => ⟨rfl, rfl⟩, fun h => h⟩
    match rest with
    | [] => rfl
    | c :: r =>
      have hc : isGoDigit c = false := hrest c rfl
      rw [isGoDigit_false_iff] at hc
      simp [leadingFracGo, hc]
  | cons c ds ih =>
    intro rest x sc b hds hrest
    have hc : isGoDigit c = true := hds c (List.mem_cons_self c ds)
    have hcv : 48 ≤ c.toNat ∧ c.toNat ≤ 57 := (isGoDigit_iff c).mp hc
    have hds2 : ∀ d ∈ ds, isGoDigit d = true := fun d hd => hds d (List.mem_cons_of_mem c hd)
    have hstep : ∀ (b2 : Bool) (x2 : Nat) (sc2 : ℚ),
        leadingFracGo x2 sc2 b2 ((c :: ds) ++ rest) =
        if c < '0' ∨ '9' < c then (x2, sc2, (c :: ds) ++ rest)
        else if b2 then leadingFracGo x2 sc2 true (ds ++ rest)
        else if (2 ^ 63 - 1) / 10 < x2 then leadingFracGo x2 sc2 true (ds ++ rest)
        else if 2 ^ 63 < x2 * 10 + (c.toNat - '0'.toNat) then
          leadingFracGo x2 sc2 true (ds ++ rest)
        else leadingFracGo (x2 * 10 + (c.toNat - '0'.toNat)) (f64mul sc2 10) false
          (ds ++ rest) :=
      fun b2 x2 sc2 => rfl
    rw [hstep]
    rw [if_neg (not_break_of_digit c hc)]
    match b with
    | true =>
      rw [if_pos rfl]
      obtain ⟨x2, sc2, heq, hfrozen, hinv⟩ := ih rest x sc true hds2 hrest
      exact ⟨x2, sc2, heq, fun _ => hfrozen rfl, hinv⟩
    | false =>
      rw [if_neg (by simp)]
      by_cases hov : (2 ^ 63 - 1) / 10 < x
      · rw [if_pos hov]
        obtain ⟨x2, sc2, heq, hfrozen, _⟩ := ih rest x sc true hds2 hrest
        obtain ⟨hx2, hsc2⟩ := hfrozen rfl
        refine ⟨x2, sc2, heq, fun _ => ⟨hx2, hsc2⟩, ?_⟩
        intro h
        rw [hx2, hsc2]
        exact h
      · rw [if_neg hov]
        by_cases hov2 : 2 ^ 63 < x * 10 + (c.toNat - '0'.toNat)
        · rw [if_pos hov2]
          obtain ⟨x2, sc2, heq, hfrozen, _⟩ := ih rest x sc true hds2 hrest
          obtain ⟨hx2, hsc2⟩ := hfrozen rfl
          refine ⟨x2, sc2, heq, fun _ => ⟨hx2, hsc2⟩, ?_⟩
          intro h
          rw [hx2, hsc2]
          exact h
        · rw [if_neg hov2]
          obtain ⟨x2, sc2, heq, _, hinv⟩ :=
            ih rest (x * 10 + (c.toNat - '0'.toNat)) (f64mul sc 10) false hds2 hrest
          have h48 : '0'.toNat = 48 := rfl
          refine ⟨x2, sc2, heq, fun hb => Bool.noConfusion hb, ?_⟩
          intro hxsc
          exact hinv (fracInv_step x sc (c.toNat - '0'.toNat) (by omega) (by omega) hxsc)

/-- Running the token loop on `"0." ++ ds ++ "s"` for a digit run `ds`:
the single token is consumed and the result is the (bounded) fractional
contribution — never an error, however long the digit run is and
whether or not the fraction lexer hit its overflow cutoff. -/
theorem parseDurLoop_zero_dot (F : Nat) (ds : List Char)
    (hds : ∀ c ∈ ds, isGoDigit c = true) :
    ∃ n, n ≤ 16000000000 ∧
      parseDurLoop (F + 1) 0 ('0' :: '.' :: (ds ++ ['s'])) = .ok n := by
  have hli : leadingInt ('0' :: ('.' :: (ds ++ ['s']))) = some (0, '.' :: (ds ++ ['s'])) := by
    have := leadingInt_digits ['0'] ('.' :: (ds ++ ['s'])) (by decide)
      (headNotDigit_cons '.' (ds ++ ['s']) (by decide))
    simpa [digitsVal] using this
  obtain ⟨f, sc, hlf, _, hinvp⟩ :=
    leadingFracGo_spec ds ['s'] 0 1 false hds (headNotDigit_cons 's' [] (by decide))
  obtain ⟨hsc0, hfsc⟩ := fracInv_bounds f sc (hinvp fracInv_zero_one)
  have hbound : fracAdd f 1000000000 sc ≤ 16000000000 := fracAdd_le f sc hsc0 hfsc
  have hfs : fracStep ('.' :: (ds ++ ['s'])) =
      (f, sc, ['s'], decide ((['s'] : List Char).length ≠ (ds ++ ['s']).length)) := by
    simp only [fracStep, leadingFraction, hlf]
  have hpre : (('.' :: (ds ++ ['s'])).length ≠ ('0' :: '.' :: (ds ++ ['s'])).length) := by
    simp
  simp only [parseDurLoop]
  rw [show (!('0' == '.' || isGoDigit '0')) = false by decide]
  simp only [Bool.false_eq_true, if_false]
  simp only [hli]
  rw [decide_eq_true hpre]
  simp only [hfs]
  simp only [Bool.not_true, Bool.false_and, Bool.false_eq_true, if_false]
  rw [show List.takeWhile unitChar ['s'] = ['s'] from rfl]
  rw [if_neg (by simp : ¬((['s'] : List Char) = []))]
  rw [show unitMap ['s'] = some 1000000000 from rfl]
  simp only [Nat.zero_mul, Nat.zero_add]
  rw [if_neg (by decide : ¬(2 ^ 63 / 1000000000 < 0))]
  have hv2 : (if 0 < f then fracAdd f 1000000000 sc else 0) ≤ 16000000000 := by
    split
    · exact hbound
    · omega
  rw [if_neg (by
    intro hc
    have := hc.2
    omega)]
  rw [Nat.mod_eq_of_lt
    (show (if 0 < f then fracAdd f 1000000000 sc else 0) < 2 ^ 64 by omega)]
  rw [if_neg (by omega)]
  rw [show List.dropWhile unitChar ['s'] = [] from rfl, parseDurLoop_nil]
  exact ⟨_, hv2, rfl⟩

/-- C9: fractional consumption never fails: for every string of decimal
digits `ds`, however long, `ParseDuration ("0." ++ ds ++ "s")` returns a
value rather than an error; the fraction lexer consumes the whole digit
run, and once its numerator would overflow, further digits are still
consumed but neither the numerator nor the scale changes. -/
theorem c9_fraction_consumption_total (ds : List Char)
    (hds : ∀ c ∈ ds, isGoDigit c = true) :
    (∃ n : Int, ParseDuration ('0' :: '.' :: (ds ++ ['s'])) = .ok n) ∧
      (leadingFraction ds).2.2 = [] ∧
      ∀ x sc, leadingFracGo x sc true ds = (x, sc, []) := by
  refine ⟨?_, ?_, ?_⟩
  · obtain ⟨n, hn, hloop⟩ := parseDurLoop_zero_dot (ds.length + 2) ds hds
    have hlen : ('0' :: '.' :: (ds ++ ['s'])).length = ds.length + 2 + 1 := by
      simp
    rw [ParseDuration_digit_head '0' ('.' :: (ds ++ ['s'])) (by decide) (by simp)]
    rw [hlen, hloop]
    refine ⟨goInt64OfUint64 n, ?_⟩
    show (if 2 ^ 63 - 1 < n then Except.error DurErr.overflow
      else Except.ok (goInt64OfUint64 n)) = Except.ok (goInt64OfUint64 n)
    rw [if_neg (by omega)]
  · obtain ⟨x2, sc2, heq, _, _⟩ := leadingFracGo_spec ds [] 0 1 false hds headNotDigit_nil
    rw [List.append_nil] at heq
    rw [leadingFraction, heq]
  · intro x sc
    obtain ⟨x2, sc2, heq, hfrozen, _⟩ :=
      leadingFracGo_spec ds [] x sc true hds headNotDigit_nil
    rw [List.append_nil] at heq
    obtain ⟨h1, h2⟩ := hfrozen rfl
    rw [heq, h1, h2]

/-- Witness for C9 on a 25-nines fraction, long enough to drive the
fraction lexer past its overflow cutoff. -/
theorem c9_fraction_consumption_total_witness :
    (∀ c ∈ "9999999999999999999999999".data, isGoDigit c = true) ∧
      (∃ n : Int,
        ParseDuration ('0' :: '.' :: ("9999999999999999999999999".data ++ ['s'])) = .ok n) :=
  ⟨by decide, (c9_fraction_consumption_total "9999999999999999999999999".data (by decide)).1⟩
